import Mathlib

/-!
Verification of the change-propagation engine of tf-mod-watcher.

The source under scrutiny is `internal/analyzer/analyzer.go` (the Analyzer
engine: `NewAnalyzer`, `getAnalysisCache`, `setAnalysisCache`,
`IsModuleUpdated`, `hasDirectFileChanges`, `ConvertToRelativePath`,
`AnalyzeRootModules`) and `internal/terraform/parser.go`
(`FindChildModules`, `findTerraformFiles`, `resolveModulePath`).

Modelling conventions:

* Filesystem paths are `String`s.  The lexical path algebra of Go's
  `path/filepath` on Unix (`Clean`, `IsAbs`, `Join`, `Abs`, `Rel`) is
  re-implemented below over `List Char` so that every function is a
  structurally recursive, kernel-reducible definition.
* The filesystem itself is an abstract, immutable value (`FileSystem`):
  `statExists` models a successful `os.Stat`, `readDir` models
  `os.ReadDir`.  The run is single-threaded and the changed-file set is
  immutable, so a pure value is a faithful model of one analysis run.
* HCL parsing (`extractModuleSources`) is an external collaborator: it is
  modelled as an abstract function `parseSources : String → Except String
  (List String)` giving the declared module source strings of one `.tf`
  file, in declaration order.
* `IsModuleUpdated` is recursive through the lazily discovered module
  graph and genuinely diverges on reference cycles, so it is embedded
  with an explicit fuel parameter: `none` models a run that did not
  finish within the given recursion budget; `some` is the value actually
  returned by the Go function.
* `log/slog` diagnostics: only the warning-level sink matters to the
  spec, so the analyzer state carries the list of emitted warnings.
* Errors are modelled as `Except String`, with the same `fmt.Errorf`
  wrapping texts as the source.
-/

/-! ## Lexical path algebra (Go `path/filepath`, Unix rules) -/

/-- Split a character list on `'/'`; `cur` is the (reversed) pending
component.  Models the component decomposition used by `filepath.Clean`. -/
def splitOnSlash : List Char → List Char → List (List Char)
  | [], cur => [cur.reverse]
  | c :: rest, cur =>
    if c = '/' then cur.reverse :: splitOnSlash rest []
    else splitOnSlash rest (c :: cur)

/-- The path components of `p`: split on separators, dropping empty
components and `"."`, exactly as `filepath.Clean` skips them. -/
def comps (p : String) : List String :=
  ((splitOnSlash p.data []).map (fun l => String.mk l)).filter
    (fun c => !(c = "" : Bool) && !(c = "." : Bool))

/-- Go `filepath.IsAbs` on Unix: the path begins with a separator. -/
def isAbs (p : String) : Bool :=
  match p.data with
  | [] => false
  | c :: _ => c = '/'

/-- One step of `filepath.Clean`'s element loop: push a component onto the
stack of kept components (stack is reversed).  `".."` pops a real
component, is dropped at the root of a rooted path, and accumulates at the
front of a relative path. -/
def pushComp (rooted : Bool) (stack : List String) (c : String) : List String :=
  if c = ".." then
    match stack with
    | [] => if rooted then [] else [".."]
    | top :: rest => if top = ".." then c :: top :: rest else rest
  else c :: stack

/-- Join components with `"/"` (no leading separator). -/
def joinComps : List String → String
  | [] => ""
  | [c] => c
  | c :: rest => c ++ "/" ++ joinComps rest

/-- Go `filepath.Clean` (Unix): shortest lexically equivalent path. -/
def clean (p : String) : String :=
  if p = "" then "."
  else
    let rooted := isAbs p
    let stack := (comps p).foldl (pushComp rooted) []
    let body := joinComps stack.reverse
    if rooted then "/" ++ body
    else if stack.isEmpty then "." else body

/-- Go `filepath.Join` restricted to two elements, as used by the source:
non-empty elements are joined with a separator and the result is cleaned. -/
def joinPath (dir name : String) : String :=
  if dir = "" then (if name = "" then "" else clean name)
  else if name = "" then clean dir
  else clean (dir ++ "/" ++ name)

/-- Go `filepath.Abs`: already-absolute paths are cleaned, relative paths
are joined to the working directory `cwd`.  (The `os.Getwd` failure mode
is an environment error outside the model.) -/
def absPath (cwd p : String) : String :=
  if isAbs p then clean p else joinPath cwd p

/-- Go `strings.HasPrefix`. -/
def hasPfx (s p : String) : Bool := p.data.isPrefixOf s.data

/-- Go `strings.TrimPrefix`. -/
def trimPfx (s p : String) : String :=
  if hasPfx s p then String.mk (s.data.drop p.data.length) else s

/-- Go `strings.HasSuffix`. -/
def hasSfx (s p : String) : Bool := p.data.isSuffixOf s.data

/-- Drop the shared leading components of two component lists. -/
def dropShared : List String → List String → List String × List String
  | b :: bs, t :: ts =>
    if b = t then dropShared bs ts else (b :: bs, t :: ts)
  | bs, ts => (bs, ts)

/-- Go `filepath.Rel`, modelled for the only call site in the source:
both arguments are absolute and already cleaned (`ConvertToRelativePath`
cleans and checks them first).  Equal paths give `"."`; otherwise the
shared component run is stripped, each remaining base component becomes
`".."`, and the remaining target components follow. -/
def relPath (base targ : String) : Except String String :=
  if base = targ then Except.ok "."
  else
    match dropShared (comps base) (comps targ) with
    | (br, tr) =>
      if br.contains ".." then
        Except.error ("Rel: cannot make " ++ targ ++ " relative to " ++ base)
      else if br.isEmpty then Except.ok (joinComps tr)
      else Except.ok (joinComps (List.replicate br.length ".." ++ tr))

/-! Sanity checks of the path algebra on concrete inputs. -/

example : clean "/root//project/./x/../y" = "/root/project/y" := by decide
example : clean "a/b/../c" = "a/c" := by decide
example : clean "/.." = "/" := by decide
example : clean "" = "." := by decide
example : joinPath "/m" "./child" = "/m/child" := by decide
example : absPath "/w" "rel/x" = "/w/rel/x" := by decide
example : trimPfx "/root/project/a" "/root/project" = "/a" := by decide

/-! ## Filesystem and analyzer state -/

/-- One entry of `os.ReadDir`. -/
structure DirEntry where
  name : String
  isDir : Bool
deriving DecidableEq

/-- The immutable filesystem seen by one analysis run.  `statExists p`
models `os.Stat(p)` succeeding (the branch guarded by `os.IsNotExist`);
`readDir` models `os.ReadDir`. -/
structure FileSystem where
  statExists : String → Bool
  readDir : String → Except String (List DirEntry)

/-- A warning emitted to the diagnostic sink (`logger.Warn`). -/
inductive Warning where
  | missingDir (dir : String)
  | extractionFailed (dir : String) (err : String)
deriving DecidableEq

-- Propositional equality on `Except` results is decidable (used to
-- evaluate concrete runs).
deriving instance DecidableEq for Except

/-- The `Analyzer` struct of `internal/analyzer/analyzer.go`: the
normalized changed-file set, the memoization cache (an association list;
lookup takes the most recent binding, matching a Go map in which each key
is written at most once), and the warnings emitted so far. -/
structure Analyzer where
  changedFiles : List String
  analysisCache : List (String × Bool)
  warnings : List Warning
deriving DecidableEq

/-- Lookup in the analysis cache (Go map indexing). -/
def lookupCache : List (String × Bool) → String → Option Bool
  | [], _ => none
  | (k, v) :: rest, key => if key = k then some v else lookupCache rest key

/-- `NewAnalyzer`: normalizes every changed file to an absolute path and
starts with an empty cache. -/
def NewAnalyzer (cwd : String) (changedFiles : List String) : Analyzer :=
  { changedFiles := changedFiles.map (absPath cwd)
    analysisCache := []
    warnings := [] }

/-- The cache key used by `getAnalysisCache`/`setAnalysisCache`: the
argument is made absolute if needed, then lexically cleaned. -/
def canonKey (cwd moduleDir : String) : String :=
  clean (if isAbs moduleDir then moduleDir else absPath cwd moduleDir)

/-- `getAnalysisCache`. -/
def getAnalysisCache (a : Analyzer) (cwd moduleDir : String) : Option Bool :=
  lookupCache a.analysisCache (canonKey cwd moduleDir)

/-- `setAnalysisCache`. -/
def setAnalysisCache (a : Analyzer) (cwd moduleDir : String) (updated : Bool) : Analyzer :=
  { a with analysisCache := (canonKey cwd moduleDir, updated) :: a.analysisCache }

/-- Append a warning to the diagnostic sink. -/
def addWarning (a : Analyzer) (w : Warning) : Analyzer :=
  { a with warnings := a.warnings ++ [w] }

/-- `hasDirectFileChanges`: list the immediate entries of the module
directory; a read failure is wrapped and propagated; otherwise report
whether some non-directory entry's absolute cleaned path is in the
changed-file set. -/
def hasDirectFileChanges (fs : FileSystem) (cwd : String) (changed : List String)
    (moduleDir0 : String) : Except String Bool :=
  match fs.readDir (clean moduleDir0) with
  | Except.error e =>
    Except.error ("failed to read directory " ++ clean moduleDir0 ++ ": " ++ e)
  | Except.ok entries =>
    Except.ok (entries.any (fun ent =>
      !ent.isDir && changed.contains (absPath cwd (clean (joinPath (clean moduleDir0) ent.name)))))

/-- The child-recursion loop of `IsModuleUpdated` (analyzer.go lines
124-138): visit the children in declaration order; propagate a child
error wrapped; on the first `true` child record the parent as updated and
stop; if all children are `false`, record the parent as not updated. -/
def childLoop (recur : Analyzer → String → Option (Analyzer × Except String Bool))
    (cwd parentDir : String) : Analyzer → List String → Option (Analyzer × Except String Bool)
  | a, [] => some (setAnalysisCache a cwd parentDir false, Except.ok false)
  | a, c :: cs =>
    match recur a c with
    | none => none
    | some (a1, Except.error e) =>
      some (a1, Except.error ("failed to analyze child module " ++ c ++ ": " ++ e))
    | some (a1, Except.ok true) =>
      some (setAnalysisCache a1 cwd parentDir true, Except.ok true)
    | some (a1, Except.ok false) => childLoop recur cwd parentDir a1 cs

/-- The body of `IsModuleUpdated`, with the recursive self-call abstracted
as `recur`: clean the path, consult the cache, check existence, check
direct changes, extract children (fail-open on extraction error), and
recurse over the children. -/
def analyzeStep (fs : FileSystem) (fcm : String → Except String (List String)) (cwd : String)
    (recur : Analyzer → String → Option (Analyzer × Except String Bool))
    (a : Analyzer) (moduleDir0 : String) : Option (Analyzer × Except String Bool) :=
  match getAnalysisCache a cwd (clean moduleDir0) with
  | some updated => some (a, Except.ok updated)
  | none =>
    if fs.statExists (clean moduleDir0) then
      match hasDirectFileChanges fs cwd a.changedFiles (clean moduleDir0) with
      | Except.error e =>
        some (a, Except.error ("failed to check direct changes in " ++ clean moduleDir0 ++ ": " ++ e))
      | Except.ok true =>
        some (setAnalysisCache a cwd (clean moduleDir0) true, Except.ok true)
      | Except.ok false =>
        match fcm (clean moduleDir0) with
        | Except.error e =>
          some (setAnalysisCache
            (addWarning a (Warning.extractionFailed (clean moduleDir0) e))
            cwd (clean moduleDir0) false, Except.ok false)
        | Except.ok childModules => childLoop recur cwd (clean moduleDir0) a childModules
    else
      some (setAnalysisCache (addWarning a (Warning.missingDir (clean moduleDir0)))
        cwd (clean moduleDir0) false, Except.ok false)

/-- `IsModuleUpdated`, with fuel: `none` models a recursion that does not
finish within `fuel` nested calls (the Go function simply recurses; a
cyclic module graph makes it diverge).  `fcm` is
`terraform.FindChildModules` viewed at its interface. -/
def IsModuleUpdated (fs : FileSystem) (fcm : String → Except String (List String))
    (cwd : String) : Nat → Analyzer → String → Option (Analyzer × Except String Bool)
  | 0 => fun _ _ => none
  | fuel + 1 => analyzeStep fs fcm cwd (IsModuleUpdated fs fcm cwd fuel)

/-! ## Terraform parser (`internal/terraform/parser.go`) -/

/-- The terraform package's view of the world: the filesystem plus the
HCL extraction of one file's `module` block `source` attributes
(`extractModuleSources`, an external parser treated at its interface). -/
structure ParseEnv where
  fs : FileSystem
  parseSources : String → Except String (List String)

/-- The `.tf` files of a directory listing, joined to the directory:
the successful branch of `findTerraformFiles`. -/
def tfFileList (dir : String) (entries : List DirEntry) : List String :=
  (entries.filter (fun ent => !ent.isDir && hasSfx ent.name ".tf")).map
    (fun ent => joinPath dir ent.name)

/-- `findTerraformFiles`: non-recursive listing of `.tf` files. -/
def findTerraformFiles (fs : FileSystem) (dir : String) : Except String (List String) :=
  match fs.readDir dir with
  | Except.error e => Except.error ("failed to read directory: " ++ e)
  | Except.ok entries => Except.ok (tfFileList dir entries)

/-- `resolveModulePath`: join the module directory with the source and
clean the result. -/
def resolveModulePath (moduleDir source : String) : String :=
  clean (joinPath moduleDir source)

/-- The source-filtering loop of `FindChildModules`: sources whose join
with the module directory does not exist locally are skipped (remote
modules), absolute sources are skipped, the rest are resolved. -/
def resolveSources (pe : ParseEnv) (moduleDir : String) (sources : List String) : List String :=
  sources.filterMap (fun source =>
    if pe.fs.statExists (joinPath moduleDir source) = false then none
    else if isAbs source then none
    else some (resolveModulePath moduleDir source))

/-- The per-file loop of `FindChildModules`: parse each `.tf` file (a
parse failure is wrapped and aborts), resolve its sources, and concatenate
in file order. -/
def collectChildModules (pe : ParseEnv) (moduleDir : String) :
    List String → Except String (List String)
  | [] => Except.ok []
  | tfFile :: rest =>
    match pe.parseSources tfFile with
    | Except.error e => Except.error ("failed to parse " ++ tfFile ++ ": " ++ e)
    | Except.ok sources =>
      match collectChildModules pe moduleDir rest with
      | Except.error e => Except.error e
      | Except.ok tail => Except.ok (resolveSources pe moduleDir sources ++ tail)

/-- `FindChildModules`. -/
def FindChildModules (pe : ParseEnv) (moduleDir : String) : Except String (List String) :=
  match findTerraformFiles pe.fs moduleDir with
  | Except.error e =>
    Except.error ("failed to find terraform files in " ++ moduleDir ++ ": " ++ e)
  | Except.ok tfFiles => collectChildModules pe moduleDir tfFiles

/-! ## Path conversion and root-set orchestration -/

/-- `ConvertToRelativePath`: both arguments must be absolute; if the
cleaned path has the cleaned base as a string prefix the prefix and a
leading separator are trimmed, otherwise `filepath.Rel` is used. -/
def ConvertToRelativePath (basePath absolutePath : String) : Except String String :=
  if isAbs basePath = false then
    Except.error ("base path " ++ basePath ++ " is not absolute")
  else if isAbs absolutePath = false then
    Except.error ("path " ++ absolutePath ++ " is not absolute")
  else if hasPfx (clean absolutePath) (clean basePath) = false then
    relPath (clean basePath) (clean absolutePath)
  else
    Except.ok (trimPfx (trimPfx (clean absolutePath) (clean basePath)) "/")

/-- The per-root loop of `AnalyzeRootModules`: analyze each root on the
single shared engine; any error aborts the whole batch wrapped; roots with
a `true` verdict are converted to a base-relative path and collected in
input order. -/
def rootsLoop (fs : FileSystem) (fcm : String → Except String (List String))
    (cwd basePath : String) (fuel : Nat) :
    Analyzer → List String → Option (Except String (List String))
  | _, [] => some (Except.ok [])
  | a, d :: ds =>
    match IsModuleUpdated fs fcm cwd fuel a d with
    | none => none
    | some (_, Except.error e) =>
      some (Except.error ("failed to analyze module " ++ d ++ ": " ++ e))
    | some (a1, Except.ok false) => rootsLoop fs fcm cwd basePath fuel a1 ds
    | some (a1, Except.ok true) =>
      match ConvertToRelativePath (absPath cwd basePath) (absPath cwd d) with
      | Except.error e => some (Except.error e)
      | Except.ok relP =>
        match rootsLoop fs fcm cwd basePath fuel a1 ds with
        | none => none
        | some (Except.error e) => some (Except.error e)
        | some (Except.ok rest) => some (Except.ok (relP :: rest))

/-- `AnalyzeRootModules`: one engine for the whole batch. -/
def AnalyzeRootModules (fs : FileSystem) (fcm : String → Except String (List String))
    (cwd : String) (fuel : Nat) (rootModuleDirs : List String)
    (changedFiles : List String) (basePath : String) : Option (Except String (List String)) :=
  rootsLoop fs fcm cwd basePath fuel (NewAnalyzer cwd changedFiles) rootModuleDirs

/-- The conversion applied to a root reported as updated (total version
used to state results; on the success path the `Except` is always `ok`). -/
def relOutput (cwd basePath d : String) : String :=
  match ConvertToRelativePath (absPath cwd basePath) (absPath cwd d) with
  | Except.ok r => r
  | Except.error _ => ""

/-! ## Declarative affected predicate and invariants -/

/-- The declarative "affected" relation over the lazily discovered module
graph: a directory is updated when it exists and either one of its
immediate files is in the changed set, or child extraction succeeds and
some extracted child is (recursively) updated. -/
inductive Updated (fs : FileSystem) (fcm : String → Except String (List String))
    (cwd : String) (changed : List String) : String → Prop where
  | direct {d : String} :
      fs.statExists d = true →
      hasDirectFileChanges fs cwd changed d = Except.ok true →
      Updated fs fcm cwd changed d
  | viaChild {d c : String} {cs : List String} :
      fs.statExists d = true →
      fcm d = Except.ok cs →
      c ∈ cs →
      Updated fs fcm cwd changed c →
      Updated fs fcm cwd changed d

/-- Interface contract of the declaration extractor (§6 of the spec, and
what `FindChildModules` actually produces, see `FindChildModules`
below): every returned child path is absolute and lexically cleaned. -/
def ChildrenWF (fcm : String → Except String (List String)) : Prop :=
  ∀ d cs c, fcm d = Except.ok cs → c ∈ cs → isAbs c = true ∧ clean c = c

/-- Cache invariant: every cached key is an absolute, lexically cleaned
path whose cached verdict agrees with the declarative relation. -/
def CacheOK (fs : FileSystem) (fcm : String → Except String (List String))
    (cwd : String) (changed : List String) (a : Analyzer) : Prop :=
  ∀ k v, lookupCache a.analysisCache k = some v →
    isAbs k = true ∧ clean k = k ∧ (v = true ↔ Updated fs fcm cwd changed k)

theorem updated_iff {fs : FileSystem} {fcm : String → Except String (List String)}
    {cwd : String} {changed : List String} {d : String} :
    Updated fs fcm cwd changed d ↔
      (fs.statExists d = true ∧
        (hasDirectFileChanges fs cwd changed d = Except.ok true ∨
          ∃ cs, fcm d = Except.ok cs ∧ ∃ c, c ∈ cs ∧ Updated fs fcm cwd changed c)) := by
  constructor
  · intro h
    cases h with
    | direct hex hd => exact ⟨hex, Or.inl hd⟩
    | viaChild hex hcs hc hu => exact ⟨hex, Or.inr ⟨_, hcs, _, hc, hu⟩⟩
  · rintro ⟨hex, hd | ⟨cs, hcs, c, hc, hu⟩⟩
    · exact Updated.direct hex hd
    · exact Updated.viaChild hex hcs hc hu

theorem not_updated_of_not_exists {fs : FileSystem} {fcm : String → Except String (List String)}
    {cwd : String} {changed : List String} {d : String}
    (h : fs.statExists d = false) : ¬ Updated fs fcm cwd changed d := by
  intro hu
  rcases updated_iff.mp hu with ⟨hex, -⟩
  rw [h] at hex
  cases hex

theorem not_updated_no_true_child {fs : FileSystem} {fcm : String → Except String (List String)}
    {cwd : String} {changed : List String} {d : String}
    (hd : hasDirectFileChanges fs cwd changed d = Except.ok false)
    (hrest : ∀ cs, fcm d = Except.ok cs → ∀ c, c ∈ cs → ¬ Updated fs fcm cwd changed c) :
    ¬ Updated fs fcm cwd changed d := by
  intro hu
  rcases updated_iff.mp hu with ⟨-, hdt | ⟨cs, hcs, c, hc, hu'⟩⟩
  · rw [hd] at hdt
    cases hdt
  · exact hrest cs hcs c hc hu'

theorem canonKey_fixed {m : String} (cwd : String)
    (habs : isAbs m = true) (hclean : clean m = m) : canonKey cwd m = m := by
  simp [canonKey, habs, hclean]

theorem lookupCache_cons (k : String) (v : Bool) (rest : List (String × Bool)) (key : String) :
    lookupCache ((k, v) :: rest) key = if key = k then some v else lookupCache rest key := rfl

theorem cacheOK_of_cons {fs : FileSystem} {fcm : String → Except String (List String)}
    {cwd : String} {changed : List String} {a b : Analyzer} {m : String} {v : Bool}
    (hca : CacheOK fs fcm cwd changed a)
    (hb : b.analysisCache = (m, v) :: a.analysisCache)
    (habs : isAbs m = true) (hclean : clean m = m)
    (hv : v = true ↔ Updated fs fcm cwd changed m) :
    CacheOK fs fcm cwd changed b := by
  intro k v' hkv
  rw [hb, lookupCache_cons] at hkv
  by_cases hk : k = m
  · subst hk
    rw [if_pos rfl] at hkv
    injection hkv with hv'
    subst hv'
    exact ⟨habs, hclean, hv⟩
  · rw [if_neg hk] at hkv
    exact hca k v' hkv

/-! ## Branch lemmas for `analyzeStep` -/

theorem analyzeStep_cacheHit {fs : FileSystem} {fcm : String → Except String (List String)}
    {cwd : String} {recur : Analyzer → String → Option (Analyzer × Except String Bool)}
    {a : Analyzer} {m0 : String} {v : Bool}
    (h : getAnalysisCache a cwd (clean m0) = some v) :
    analyzeStep fs fcm cwd recur a m0 = some (a, Except.ok v) := by
  unfold analyzeStep
  rw [h]

theorem analyzeStep_missing {fs : FileSystem} {fcm : String → Except String (List String)}
    {cwd : String} {recur : Analyzer → String → Option (Analyzer × Except String Bool)}
    {a : Analyzer} {m0 : String}
    (h : getAnalysisCache a cwd (clean m0) = none)
    (hex : fs.statExists (clean m0) = false) :
    analyzeStep fs fcm cwd recur a m0 =
      some (setAnalysisCache (addWarning a (Warning.missingDir (clean m0))) cwd (clean m0) false,
        Except.ok false) := by
  unfold analyzeStep
  rw [h, hex]
  simp

theorem analyzeStep_dirErr {fs : FileSystem} {fcm : String → Except String (List String)}
    {cwd : String} {recur : Analyzer → String → Option (Analyzer × Except String Bool)}
    {a : Analyzer} {m0 : String} {e : String}
    (h : getAnalysisCache a cwd (clean m0) = none)
    (hex : fs.statExists (clean m0) = true)
    (hd : hasDirectFileChanges fs cwd a.changedFiles (clean m0) = Except.error e) :
    analyzeStep fs fcm cwd recur a m0 =
      some (a, Except.error ("failed to check direct changes in " ++ clean m0 ++ ": " ++ e)) := by
  unfold analyzeStep
  rw [h, hex, hd]
  simp

theorem analyzeStep_direct {fs : FileSystem} {fcm : String → Except String (List String)}
    {cwd : String} {recur : Analyzer → String → Option (Analyzer × Except String Bool)}
    {a : Analyzer} {m0 : String}
    (h : getAnalysisCache a cwd (clean m0) = none)
    (hex : fs.statExists (clean m0) = true)
    (hd : hasDirectFileChanges fs cwd a.changedFiles (clean m0) = Except.ok true) :
    analyzeStep fs fcm cwd recur a m0 =
      some (setAnalysisCache a cwd (clean m0) true, Except.ok true) := by
  unfold analyzeStep
  rw [h, hex, hd]
  simp

theorem analyzeStep_extractErr {fs : FileSystem} {fcm : String → Except String (List String)}
    {cwd : String} {recur : Analyzer → String → Option (Analyzer × Except String Bool)}
    {a : Analyzer} {m0 : String} {e : String}
    (h : getAnalysisCache a cwd (clean m0) = none)
    (hex : fs.statExists (clean m0) = true)
    (hd : hasDirectFileChanges fs cwd a.changedFiles (clean m0) = Except.ok false)
    (hf : fcm (clean m0) = Except.error e) :
    analyzeStep fs fcm cwd recur a m0 =
      some (setAnalysisCache
        (addWarning a (Warning.extractionFailed (clean m0) e)) cwd (clean m0) false,
        Except.ok false) := by
  unfold analyzeStep
  rw [h, hex, hd, hf]
  simp

theorem analyzeStep_children {fs : FileSystem} {fcm : String → Except String (List String)}
    {cwd : String} {recur : Analyzer → String → Option (Analyzer × Except String Bool)}
    {a : Analyzer} {m0 : String} {cs : List String}
    (h : getAnalysisCache a cwd (clean m0) = none)
    (hex : fs.statExists (clean m0) = true)
    (hd : hasDirectFileChanges fs cwd a.changedFiles (clean m0) = Except.ok false)
    (hf : fcm (clean m0) = Except.ok cs) :
    analyzeStep fs fcm cwd recur a m0 = childLoop recur cwd (clean m0) a cs := by
  unfold analyzeStep
  rw [h, hex, hd, hf]
  simp

theorem IsModuleUpdated_zero (fs : FileSystem) (fcm : String → Except String (List String))
    (cwd : String) (a : Analyzer) (m : String) :
    IsModuleUpdated fs fcm cwd 0 a m = none := rfl

theorem IsModuleUpdated_succ (fs : FileSystem) (fcm : String → Except String (List String))
    (cwd : String) (fuel : Nat) (a : Analyzer) (m : String) :
    IsModuleUpdated fs fcm cwd (fuel + 1) a m =
      analyzeStep fs fcm cwd (IsModuleUpdated fs fcm cwd fuel) a m := rfl

/-! ## Soundness of the engine against the declarative relation -/

theorem childLoop_sound {fs : FileSystem} {fcm : String → Except String (List String)}
    {cwd : String} {changed : List String} (hwf : ChildrenWF fcm) {m : String} {cs0 : List String}
    (habs : isAbs m = true) (hclean : clean m = m)
    (hex : fs.statExists m = true)
    (hdir : hasDirectFileChanges fs cwd changed m = Except.ok false)
    (hfcm : fcm m = Except.ok cs0)
    (recur : Analyzer → String → Option (Analyzer × Except String Bool))
    (hrec : ∀ a c a' res, CacheOK fs fcm cwd changed a → a.changedFiles = changed →
      isAbs c = true → clean c = c → recur a c = some (a', res) →
      CacheOK fs fcm cwd changed a' ∧ a'.changedFiles = changed ∧
        ∀ r, res = Except.ok r → (r = true ↔ Updated fs fcm cwd changed c)) :
    ∀ cs a a' res, CacheOK fs fcm cwd changed a → a.changedFiles = changed →
      (∀ c, c ∈ cs → c ∈ cs0) →
      (∀ c, c ∈ cs0 → Updated fs fcm cwd changed c → c ∈ cs) →
      childLoop recur cwd m a cs = some (a', res) →
      CacheOK fs fcm cwd changed a' ∧ a'.changedFiles = changed ∧
        ∀ r, res = Except.ok r →
          lookupCache a'.analysisCache m = some r ∧ (r = true ↔ Updated fs fcm cwd changed m) := by
  intro cs
  induction cs with
  | nil =>
    intro a a' res hca hch _ hrest hrun
    have hnu : ¬ Updated fs fcm cwd changed m := by
      apply not_updated_no_true_child hdir
      intro cs' hcs' c hc hu
      rw [hfcm] at hcs'
      injection hcs' with h'
      subst h'
      exact absurd (hrest c hc hu) (List.not_mem_nil c)
    simp only [childLoop, Option.some.injEq, Prod.mk.injEq] at hrun
    obtain ⟨h1, h2⟩ := hrun
    subst h1
    subst h2
    refine ⟨?_, hch, ?_⟩
    · exact cacheOK_of_cons hca (by rw [setAnalysisCache, canonKey_fixed cwd habs hclean])
        habs hclean (iff_of_false (by simp) hnu)
    · intro r hr
      injection hr with hr'
      subst hr'
      constructor
      · rw [setAnalysisCache, canonKey_fixed cwd habs hclean]
        simp [lookupCache_cons]
      · exact iff_of_false (by simp) hnu
  | cons c cs ih =>
    intro a a' res hca hch hsub hrest hrun
    have hcmem : c ∈ cs0 := hsub c (List.mem_cons_self c cs)
    obtain ⟨hcabs, hcclean⟩ := hwf m cs0 c hfcm hcmem
    simp only [childLoop] at hrun
    cases hq : recur a c with
    | none =>
      rw [hq] at hrun
      cases hrun
    | some p =>
      obtain ⟨a1, res1⟩ := p
      rw [hq] at hrun
      obtain ⟨hca1, hch1, hres1⟩ := hrec a c a1 res1 hca hch hcabs hcclean hq
      cases res1 with
      | error e =>
        simp only [Option.some.injEq, Prod.mk.injEq] at hrun
        obtain ⟨h1, h2⟩ := hrun
        subst h1
        subst h2
        refine ⟨hca1, hch1, ?_⟩
        intro r hr
        cases hr
      | ok b =>
        cases b with
        | true =>
          have hu : Updated fs fcm cwd changed c := (hres1 true rfl).mp rfl
          have hum : Updated fs fcm cwd changed m := Updated.viaChild hex hfcm hcmem hu
          simp only [Option.some.injEq, Prod.mk.injEq] at hrun
          obtain ⟨h1, h2⟩ := hrun
          subst h1
          subst h2
          refine ⟨?_, hch1, ?_⟩
          · exact cacheOK_of_cons hca1 (by rw [setAnalysisCache, canonKey_fixed cwd habs hclean])
              habs hclean (iff_of_true rfl hum)
          · intro r hr
            injection hr with hr'
            subst hr'
            constructor
            · rw [setAnalysisCache, canonKey_fixed cwd habs hclean]
              simp [lookupCache_cons]
            · exact iff_of_true rfl hum
        | false =>
          have hnuc : ¬ Updated fs fcm cwd changed c := by
            intro hu
            have := (hres1 false rfl).mpr hu
            cases this
          refine ih a1 a' res hca1 hch1 (fun c' hc' => hsub c' (List.mem_cons_of_mem c hc'))
            ?_ hrun
          intro c' hmem hu
          have := hrest c' hmem hu
          rcases List.mem_cons.mp this with h' | h'
          · subst h'
            exact absurd hu hnuc
          · exact h'

theorem isModuleUpdated_sound {fs : FileSystem} {fcm : String → Except String (List String)}
    {cwd : String} {changed : List String} (hwf : ChildrenWF fcm) :
    ∀ fuel a m a' res,
      CacheOK fs fcm cwd changed a → a.changedFiles = changed →
      isAbs m = true → clean m = m →
      IsModuleUpdated fs fcm cwd fuel a m = some (a', res) →
      CacheOK fs fcm cwd changed a' ∧ a'.changedFiles = changed ∧
        ∀ r, res = Except.ok r →
          lookupCache a'.analysisCache m = some r ∧ (r = true ↔ Updated fs fcm cwd changed m) := by
  intro fuel
  induction fuel with
  | zero =>
    intro a m a' res _ _ _ _ hrun
    rw [IsModuleUpdated_zero] at hrun
    cases hrun
  | succ fuel ih =>
    intro a m a' res hca hch habs hclean hrun
    rw [IsModuleUpdated_succ] at hrun
    cases hlk : lookupCache a.analysisCache m with
    | some v =>
      have hget : getAnalysisCache a cwd (clean m) = some v := by
        rw [hclean, getAnalysisCache, canonKey_fixed cwd habs hclean, hlk]
      rw [analyzeStep_cacheHit hget] at hrun
      simp only [Option.some.injEq, Prod.mk.injEq] at hrun
      obtain ⟨h1, h2⟩ := hrun
      subst h1
      subst h2
      obtain ⟨-, -, hiff⟩ := hca m v hlk
      refine ⟨hca, hch, ?_⟩
      intro r hr
      injection hr with hr'
      subst hr'
      exact ⟨hlk, hiff⟩
    | none =>
      have hget : getAnalysisCache a cwd (clean m) = none := by
        rw [hclean, getAnalysisCache, canonKey_fixed cwd habs hclean, hlk]
      cases hex : fs.statExists m with
      | false =>
        rw [analyzeStep_missing hget (by rw [hclean, hex])] at hrun
        simp only [Option.some.injEq, Prod.mk.injEq] at hrun
        obtain ⟨h1, h2⟩ := hrun
        subst h1
        subst h2
        have hnu := @not_updated_of_not_exists fs fcm cwd changed m hex
        refine ⟨?_, hch, ?_⟩
        · exact cacheOK_of_cons hca
            (by rw [hclean, setAnalysisCache, canonKey_fixed cwd habs hclean]; rfl)
            habs hclean (iff_of_false (by simp) hnu)
        · intro r hr
          injection hr with hr'
          subst hr'
          constructor
          · rw [hclean, setAnalysisCache, canonKey_fixed cwd habs hclean]
            simp [lookupCache_cons]
          · exact iff_of_false (by simp) hnu
      | true =>
        cases hd : hasDirectFileChanges fs cwd changed m with
        | error e =>
          rw [analyzeStep_dirErr hget (by rw [hclean, hex]) (by rw [hclean, hch, hd])] at hrun
          simp only [Option.some.injEq, Prod.mk.injEq] at hrun
          obtain ⟨h1, h2⟩ := hrun
          subst h1
          subst h2
          refine ⟨hca, hch, ?_⟩
          intro r hr
          cases hr
        | ok b =>
          cases b with
          | true =>
            rw [analyzeStep_direct hget (by rw [hclean, hex]) (by rw [hclean, hch, hd])] at hrun
            simp only [Option.some.injEq, Prod.mk.injEq] at hrun
            obtain ⟨h1, h2⟩ := hrun
            subst h1
            subst h2
            have hum : Updated fs fcm cwd changed m := Updated.direct hex hd
            refine ⟨?_, hch, ?_⟩
            · exact cacheOK_of_cons hca
                (by rw [hclean, setAnalysisCache, canonKey_fixed cwd habs hclean])
                habs hclean (iff_of_true rfl hum)
            · intro r hr
              injection hr with hr'
              subst hr'
              constructor
              · rw [hclean, setAnalysisCache, canonKey_fixed cwd habs hclean]
                simp [lookupCache_cons]
              · exact iff_of_true rfl hum
          | false =>
            cases hf : fcm m with
            | error e =>
              rw [analyzeStep_extractErr hget (by rw [hclean, hex]) (by rw [hclean, hch, hd])
                (by rw [hclean, hf])] at hrun
              simp only [Option.some.injEq, Prod.mk.injEq] at hrun
              obtain ⟨h1, h2⟩ := hrun
              subst h1
              subst h2
              have hnu : ¬ Updated fs fcm cwd changed m := by
                apply not_updated_no_true_child hd
                intro cs' hcs'
                rw [hf] at hcs'
                cases hcs'
              refine ⟨?_, hch, ?_⟩
              · exact cacheOK_of_cons hca
                  (by rw [hclean, setAnalysisCache, canonKey_fixed cwd habs hclean]; rfl)
                  habs hclean (iff_of_false (by simp) hnu)
              · intro r hr
                injection hr with hr'
                subst hr'
                constructor
                · rw [hclean, setAnalysisCache, canonKey_fixed cwd habs hclean]
                  simp [lookupCache_cons]
                · exact iff_of_false (by simp) hnu
            | ok cs =>
              rw [analyzeStep_children hget (by rw [hclean, hex]) (by rw [hclean, hch, hd])
                (by rw [hclean, hf]), hclean] at hrun
              exact childLoop_sound hwf habs hclean hex hd hf
                (IsModuleUpdated fs fcm cwd fuel)
                (fun a c a' res hca' hch' habs' hclean' hq =>
                  (ih a c a' res hca' hch' habs' hclean' hq).imp id
                    (fun h => h.imp id (fun h' r hr => ((h' r hr).2))))
                cs a a' res hca hch (fun c hc => hc) (fun c hc _ => hc) hrun

/-! ## Termination on measured (acyclic) module graphs -/

/-- A measure decreasing along every module reference: the shape of an
acyclic module dependency graph whose reference chains have bounded
depth. -/
def MeasuredAcyclic (fcm : String → Except String (List String)) (mu : String → Nat) : Prop :=
  ∀ d cs c, fcm d = Except.ok cs → c ∈ cs → mu c < mu d

theorem childLoop_total (recur : Analyzer → String → Option (Analyzer × Except String Bool))
    (cwd m : String) :
    ∀ cs a, (∀ a' c, c ∈ cs → recur a' c ≠ none) →
      childLoop recur cwd m a cs ≠ none := by
  intro cs
  induction cs with
  | nil =>
    intro a _
    simp [childLoop]
  | cons c cs ih =>
    intro a htot
    simp only [childLoop]
    cases hq : recur a c with
    | none => exact absurd hq (htot a c (List.mem_cons_self c cs))
    | some p =>
      obtain ⟨a1, res1⟩ := p
      cases res1 with
      | error e => simp
      | ok b =>
        cases b with
        | true => simp
        | false => exact ih a1 (fun a' c' hc' => htot a' c' (List.mem_cons_of_mem c hc'))

theorem isModuleUpdated_total {fs : FileSystem} {fcm : String → Except String (List String)}
    {cwd : String} (hwf : ChildrenWF fcm) (mu : String → Nat)
    (hmu : MeasuredAcyclic fcm mu) :
    ∀ fuel a m, isAbs m = true → clean m = m → mu m < fuel →
      IsModuleUpdated fs fcm cwd fuel a m ≠ none := by
  intro fuel
  induction fuel with
  | zero =>
    intro a m _ _ h
    exact absurd h (Nat.not_lt_zero _)
  | succ fuel ih =>
    intro a m habs hclean hlt
    rw [IsModuleUpdated_succ]
    cases hlk : lookupCache a.analysisCache m with
    | some v =>
      rw [analyzeStep_cacheHit (by rw [hclean, getAnalysisCache, canonKey_fixed cwd habs hclean, hlk])]
      simp
    | none =>
      have hget : getAnalysisCache a cwd (clean m) = none := by
        rw [hclean, getAnalysisCache, canonKey_fixed cwd habs hclean, hlk]
      cases hex : fs.statExists m with
      | false =>
        rw [analyzeStep_missing hget (by rw [hclean, hex])]
        simp
      | true =>
        cases hd : hasDirectFileChanges fs cwd a.changedFiles m with
        | error e =>
          rw [analyzeStep_dirErr hget (by rw [hclean, hex]) (by rw [hclean, hd])]
          simp
        | ok b =>
          cases b with
          | true =>
            rw [analyzeStep_direct hget (by rw [hclean, hex]) (by rw [hclean, hd])]
            simp
          | false =>
            cases hf : fcm m with
            | error e =>
              rw [analyzeStep_extractErr hget (by rw [hclean, hex]) (by rw [hclean, hd])
                (by rw [hclean, hf])]
              simp
            | ok cs =>
              rw [analyzeStep_children hget (by rw [hclean, hex]) (by rw [hclean, hd])
                (by rw [hclean, hf]), hclean]
              apply childLoop_total
              intro a' c hc
              obtain ⟨hcabs, hcclean⟩ := hwf m cs c hf hc
              have hltc : mu c < mu m := hmu m cs c hf hc
              exact ih a' c hcabs hcclean (by omega)

/-! ## String lemmas for path conversion -/

theorem strData_append (s t : String) : (s ++ t).data = s.data ++ t.data := by
  obtain ⟨ls⟩ := s
  obtain ⟨lt⟩ := t
  rfl

theorem strAppend_assoc (a b c : String) : a ++ b ++ c = a ++ (b ++ c) := by
  obtain ⟨la⟩ := a
  obtain ⟨lb⟩ := b
  obtain ⟨lc⟩ := c
  exact congrArg String.mk (List.append_assoc la lb lc)

theorem isPrefixOf_self_append (l r : List Char) : l.isPrefixOf (l ++ r) = true :=
  List.isPrefixOf_iff_prefix.mpr (List.prefix_append l r)

theorem hasPfx_self_append (p t : String) : hasPfx (p ++ t) p = true := by
  unfold hasPfx
  rw [strData_append]
  exact isPrefixOf_self_append _ _

theorem trimPfx_self_append (p t : String) : trimPfx (p ++ t) p = t := by
  unfold trimPfx
  rw [hasPfx_self_append, if_pos rfl, strData_append, List.drop_left]

theorem isAbs_append {p : String} (t : String) (h : isAbs p = true) : isAbs (p ++ t) = true := by
  unfold isAbs at h ⊢
  rw [strData_append]
  cases hp : p.data with
  | nil =>
    rw [hp] at h
    exact Bool.noConfusion h
  | cons c rest =>
    rw [hp] at h
    exact h

/-- The in-scope half of `ConvertToRelativePath`: a path lying under the
base has the base prefix and the leading separator stripped. -/
theorem convertToRelativePath_under (base s : String) (habs : isAbs base = true)
    (hbase : clean base = base) (hfull : clean (base ++ "/" ++ s) = base ++ "/" ++ s) :
    ConvertToRelativePath base (base ++ "/" ++ s) = Except.ok s := by
  have habs2 : isAbs (base ++ "/" ++ s) = true := by
    rw [strAppend_assoc]
    exact isAbs_append _ habs
  have hpfx : hasPfx (base ++ "/" ++ s) base = true := by
    rw [strAppend_assoc]
    exact hasPfx_self_append base ("/" ++ s)
  unfold ConvertToRelativePath
  rw [hbase, hfull]
  rw [if_neg (by rw [habs]; simp), if_neg (by rw [habs2]; simp), if_neg (by rw [hpfx]; simp)]
  rw [strAppend_assoc, trimPfx_self_append, trimPfx_self_append]

/-! ## A concrete cyclic module graph -/

/-- A filesystem with a single module directory `/m` containing one file. -/
def cycFS : FileSystem :=
  { statExists := fun p => p = "/m"
    readDir := fun p =>
      if p = "/m" then Except.ok [{ name := "main.tf", isDir := false }]
      else Except.error "no such directory" }

/-- An extractor reporting `/m` as its own child: a reference cycle. -/
def cycFCM : String → Except String (List String) :=
  fun p => if p = "/m" then Except.ok ["/m"] else Except.error "no such module"

/-- On the self-cycle with no direct change the recursion re-enters the
same unfinished node: no recursion budget suffices. -/
theorem cyc_isModuleUpdated_none :
    ∀ fuel, IsModuleUpdated cycFS cycFCM "/w" fuel (NewAnalyzer "/w" []) "/m" = none := by
  intro fuel
  induction fuel with
  | zero => rfl
  | succ fuel ih =>
    have hstep : IsModuleUpdated cycFS cycFCM "/w" (fuel + 1) (NewAnalyzer "/w" []) "/m" =
        childLoop (IsModuleUpdated cycFS cycFCM "/w" fuel) "/w" (clean "/m")
          (NewAnalyzer "/w" []) ["/m"] := by
      rw [IsModuleUpdated_succ]
      exact analyzeStep_children (by decide) (by decide) (by decide) (by decide)
    rw [hstep]
    simp only [childLoop]
    rw [ih]

/-! ## Helper lemmas for the parser and the orchestration -/

theorem collectChildModules_ok (pe : ParseEnv) (dir : String) :
    ∀ tfs (srcs : String → List String),
      (∀ f, f ∈ tfs → pe.parseSources f = Except.ok (srcs f)) →
      collectChildModules pe dir tfs = Except.ok (resolveSources pe dir (tfs.flatMap srcs)) := by
  intro tfs
  induction tfs with
  | nil =>
    intro srcs _
    simp [collectChildModules, resolveSources]
  | cons f rest ih =>
    intro srcs h
    have hf := h f (List.mem_cons_self f rest)
    simp only [collectChildModules, hf]
    rw [ih srcs (fun f' hf' => h f' (List.mem_cons_of_mem f hf'))]
    simp only [List.flatMap_cons, resolveSources, List.filterMap_append]

theorem resolveSources_eq (pe : ParseEnv) (dir : String) (l : List String) :
    resolveSources pe dir l = l.filterMap (fun source =>
      if pe.fs.statExists (joinPath dir source) && !(isAbs source)
      then some (clean (joinPath dir source)) else none) := by
  have hfun : ∀ source : String,
      (if pe.fs.statExists (joinPath dir source) = false then none
        else if isAbs source then none else some (resolveModulePath dir source)) =
      (if pe.fs.statExists (joinPath dir source) && !(isAbs source)
        then some (clean (joinPath dir source)) else none) := by
    intro source
    cases hstat : pe.fs.statExists (joinPath dir source) <;>
      cases habs2 : isAbs source <;>
        simp [resolveModulePath, hstat, habs2]
  unfold resolveSources
  simp only [hfun]

theorem rootsLoop_filter {fs : FileSystem} {fcm : String → Except String (List String)}
    {cwd : String} {changed : List String} {basePath : String} {fuel : Nat}
    (hwf : ChildrenWF fcm) (p : String → Bool) :
    ∀ ds a l, CacheOK fs fcm cwd changed a → a.changedFiles = changed →
      (∀ d, d ∈ ds → isAbs d = true ∧ clean d = d) →
      (∀ d, d ∈ ds → (p d = true ↔ Updated fs fcm cwd changed d)) →
      rootsLoop fs fcm cwd basePath fuel a ds = some (Except.ok l) →
      l = (ds.filter p).map (relOutput cwd basePath) := by
  intro ds
  induction ds with
  | nil =>
    intro a l _ _ _ _ hrun
    simp only [rootsLoop, Option.some.injEq, Except.ok.injEq] at hrun
    subst hrun
    rfl
  | cons d ds ih =>
    intro a l hca hch hwfd hp hrun
    obtain ⟨hdabs, hdclean⟩ := hwfd d (List.mem_cons_self d ds)
    simp only [rootsLoop] at hrun
    cases hq : IsModuleUpdated fs fcm cwd fuel a d with
    | none =>
      rw [hq] at hrun
      cases hrun
    | some pr =>
      obtain ⟨a1, res1⟩ := pr
      rw [hq] at hrun
      cases res1 with
      | error e => simp at hrun
      | ok b =>
        obtain ⟨hca1, hch1, h3⟩ :=
          isModuleUpdated_sound hwf fuel a d a1 _ hca hch hdabs hdclean hq
        obtain ⟨-, hiff⟩ := h3 b rfl
        cases b with
        | false =>
          dsimp only at hrun
          have hpd : p d = false := by
            cases hpd2 : p d with
            | false => rfl
            | true =>
              have hu := (hp d (List.mem_cons_self d ds)).mp hpd2
              have := hiff.mpr hu
              cases this
          rw [List.filter_cons, hpd]
          simp only [Bool.false_eq_true, if_false]
          exact ih a1 l hca1 hch1 (fun d' hd' => hwfd d' (List.mem_cons_of_mem d hd'))
            (fun d' hd' => hp d' (List.mem_cons_of_mem d hd')) hrun
        | true =>
          dsimp only at hrun
          have hpd : p d = true := (hp d (List.mem_cons_self d ds)).mpr (hiff.mp rfl)
          cases hcv : ConvertToRelativePath (absPath cwd basePath) (absPath cwd d) with
          | error e =>
            rw [hcv] at hrun
            dsimp only at hrun
            cases hrun
          | ok relP =>
            rw [hcv] at hrun
            dsimp only at hrun
            cases hrest : rootsLoop fs fcm cwd basePath fuel a1 ds with
            | none =>
              rw [hrest] at hrun
              cases hrun
            | some res2 =>
              rw [hrest] at hrun
              cases res2 with
              | error e => simp at hrun
              | ok rest =>
                dsimp only at hrun
                simp only [Option.some.injEq, Except.ok.injEq] at hrun
                subst hrun
                have hrec := ih a1 rest hca1 hch1
                  (fun d' hd' => hwfd d' (List.mem_cons_of_mem d hd'))
                  (fun d' hd' => hp d' (List.mem_cons_of_mem d hd')) hrest
                rw [List.filter_cons, hpd]
                simp only [if_true]
                rw [List.map_cons, ← hrec]
                have hout : relOutput cwd basePath d = relP := by
                  unfold relOutput
                  rw [hcv]
                rw [hout]

/-! ## Unconditional cache behavior

The lemmas of this section establish, with no acyclicity assumption, how
one call to `IsModuleUpdated` can change the cache: values present at
call start are preserved exactly; a key that appears during the call is
either the call's own key carrying its verdict, or was completed `true`
by a nested call whose `true` short-circuits every enclosing frame, or
was completed `false` by a nested call that left all of that key's
children cached.  From this, an erroring call provably leaves its own
key uncached. -/

theorem isModuleUpdated_cache_hit {fs : FileSystem} {fcm : String → Except String (List String)}
    {cwd : String} {fuel : Nat} {a : Analyzer} {q : String} {a' : Analyzer}
    {res : Except String Bool} {b : Bool}
    (habs : isAbs q = true) (hclean : clean q = q)
    (hb : lookupCache a.analysisCache q = some b)
    (hrun : IsModuleUpdated fs fcm cwd fuel a q = some (a', res)) :
    a' = a ∧ res = Except.ok b := by
  cases fuel with
  | zero =>
    rw [IsModuleUpdated_zero] at hrun
    cases hrun
  | succ fuel =>
    rw [IsModuleUpdated_succ, analyzeStep_cacheHit
      (by rw [hclean, getAnalysisCache, canonKey_fixed cwd habs hclean, hb])] at hrun
    simp only [Option.some.injEq, Prod.mk.injEq] at hrun
    exact ⟨hrun.1.symm, hrun.2.symm⟩

theorem childLoop_ok_writes_verdict {cwd q : String}
    (recur : Analyzer → String → Option (Analyzer × Except String Bool)) :
    ∀ cs a a' r, childLoop recur cwd q a cs = some (a', Except.ok r) →
      lookupCache a'.analysisCache (canonKey cwd q) = some r := by
  intro cs
  induction cs with
  | nil =>
    intro a a' r hrun
    simp only [childLoop, Option.some.injEq, Prod.mk.injEq] at hrun
    obtain ⟨h1, h2⟩ := hrun
    subst h1
    injection h2 with h2'
    subst h2'
    rw [setAnalysisCache, lookupCache_cons, if_pos rfl]
  | cons c cs ih =>
    intro a a' r hrun
    simp only [childLoop] at hrun
    cases hq : recur a c with
    | none =>
      rw [hq] at hrun
      cases hrun
    | some pr =>
      obtain ⟨a1, res1⟩ := pr
      rw [hq] at hrun
      cases res1 with
      | error e => simp at hrun
      | ok b =>
        cases b with
        | true =>
          simp only [Option.some.injEq, Prod.mk.injEq] at hrun
          obtain ⟨h1, h2⟩ := hrun
          subst h1
          injection h2 with h2'
          subst h2'
          rw [setAnalysisCache, lookupCache_cons, if_pos rfl]
        | false => exact ih a1 a' r hrun

theorem isModuleUpdated_ok_writes_verdict {fs : FileSystem}
    {fcm : String → Except String (List String)} {cwd : String} :
    ∀ fuel a q a' r, isAbs q = true → clean q = q →
      IsModuleUpdated fs fcm cwd fuel a q = some (a', Except.ok r) →
      lookupCache a'.analysisCache q = some r := by
  intro fuel a q a' r habs hclean hrun
  cases fuel with
  | zero =>
    rw [IsModuleUpdated_zero] at hrun
    cases hrun
  | succ fuel =>
    rw [IsModuleUpdated_succ] at hrun
    have hkey : canonKey cwd q = q := canonKey_fixed cwd habs hclean
    cases hlk : lookupCache a.analysisCache q with
    | some v =>
      rw [analyzeStep_cacheHit (by rw [hclean, getAnalysisCache, hkey, hlk])] at hrun
      simp only [Option.some.injEq, Prod.mk.injEq] at hrun
      obtain ⟨h1, h2⟩ := hrun
      subst h1
      injection h2 with h2'
      subst h2'
      exact hlk
    | none =>
      have hget : getAnalysisCache a cwd (clean q) = none := by
        rw [hclean, getAnalysisCache, hkey, hlk]
      cases hex : fs.statExists q with
      | false =>
        rw [analyzeStep_missing hget (by rw [hclean, hex])] at hrun
        simp only [Option.some.injEq, Prod.mk.injEq] at hrun
        obtain ⟨h1, h2⟩ := hrun
        subst h1
        injection h2 with h2'
        subst h2'
        rw [hclean, setAnalysisCache, hkey, lookupCache_cons, if_pos rfl]
      | true =>
        cases hd : hasDirectFileChanges fs cwd a.changedFiles q with
        | error e =>
          rw [analyzeStep_dirErr hget (by rw [hclean, hex]) (by rw [hclean, hd])] at hrun
          simp only [Option.some.injEq, Prod.mk.injEq] at hrun
          obtain ⟨-, h2⟩ := hrun
          cases h2
        | ok b =>
          cases b with
          | true =>
            rw [analyzeStep_direct hget (by rw [hclean, hex]) (by rw [hclean, hd])] at hrun
            simp only [Option.some.injEq, Prod.mk.injEq] at hrun
            obtain ⟨h1, h2⟩ := hrun
            subst h1
            injection h2 with h2'
            subst h2'
            rw [hclean, setAnalysisCache, hkey, lookupCache_cons, if_pos rfl]
          | false =>
            cases hf : fcm q with
            | error e =>
              rw [analyzeStep_extractErr hget (by rw [hclean, hex]) (by rw [hclean, hd])
                (by rw [hclean, hf])] at hrun
              simp only [Option.some.injEq, Prod.mk.injEq] at hrun
              obtain ⟨h1, h2⟩ := hrun
              subst h1
              injection h2 with h2'
              subst h2'
              rw [hclean, setAnalysisCache, hkey, lookupCache_cons, if_pos rfl]
            | ok cs =>
              rw [analyzeStep_children hget (by rw [hclean, hex]) (by rw [hclean, hd])
                (by rw [hclean, hf]), hclean] at hrun
              have := childLoop_ok_writes_verdict
                (IsModuleUpdated fs fcm cwd fuel) cs a a' r hrun
              rw [hkey] at this
              exact this

theorem lookupCache_keeps_cons (k0 : String) (v0 : Bool) (rest : List (String × Bool))
    (k : String) (b : Bool) (h : lookupCache rest k = some b) :
    ∃ b2, lookupCache ((k0, v0) :: rest) k = some b2 := by
  rw [lookupCache_cons]
  by_cases hk : k = k0
  · exact ⟨v0, by rw [if_pos hk]⟩
  · exact ⟨b, by rw [if_neg hk]; exact h⟩

/-- A `false` verdict for `z` is justified by the cache `a` when `z`'s
analysis shape forces `false` up to the verdicts of `z`'s children: the
directory is missing, or extraction fails, or every extracted child has a
cached verdict. -/
def FalseJustified (fs : FileSystem) (fcm : String → Except String (List String))
    (a : Analyzer) (z : String) : Prop :=
  fs.statExists z = false ∨ (∃ e, fcm z = Except.error e) ∨
  (∃ cs, fcm z = Except.ok cs ∧
    ∀ c, c ∈ cs → ∃ b, lookupCache a.analysisCache c = some b)

theorem falseJustified_mono {fs : FileSystem} {fcm : String → Except String (List String)}
    {a1 a2 : Analyzer} {z : String}
    (hkeep : ∀ k b, lookupCache a1.analysisCache k = some b →
      ∃ b2, lookupCache a2.analysisCache k = some b2) :
    FalseJustified fs fcm a1 z → FalseJustified fs fcm a2 z := by
  rintro (h | h | ⟨cs, hcs, hall⟩)
  · exact Or.inl h
  · exact Or.inr (Or.inl h)
  · refine Or.inr (Or.inr ⟨cs, hcs, fun c hc => ?_⟩)
    obtain ⟨b, hb⟩ := hall c hc
    exact hkeep c b hb

theorem childLoop_value_fate {fs : FileSystem} {fcm : String → Except String (List String)}
    {cwd : String} {fuel : Nat} {q : String} {cs0 : List String}
    (hrec : ∀ aa c aa' rr, c ∈ cs0 →
      IsModuleUpdated fs fcm cwd fuel aa c = some (aa', rr) →
      ∀ k v, lookupCache aa.analysisCache k = some v →
        lookupCache aa'.analysisCache k = some v) :
    ∀ cs aL a' res, (∀ c, c ∈ cs → c ∈ cs0) →
      childLoop (IsModuleUpdated fs fcm cwd fuel) cwd q aL cs = some (a', res) →
      ∀ k v, lookupCache aL.analysisCache k = some v →
        lookupCache a'.analysisCache k = some v ∨
        (k = canonKey cwd q ∧ ∃ r, res = Except.ok r ∧
          lookupCache a'.analysisCache k = some r) := by
  intro cs
  induction cs with
  | nil =>
    intro aL a' res _ hrun k v hk
    simp only [childLoop, Option.some.injEq, Prod.mk.injEq] at hrun
    obtain ⟨h1, h2⟩ := hrun
    subst h1
    subst h2
    by_cases hkq : k = canonKey cwd q
    · refine Or.inr ⟨hkq, false, rfl, ?_⟩
      rw [setAnalysisCache, lookupCache_cons, if_pos hkq]
    · refine Or.inl ?_
      rw [setAnalysisCache, lookupCache_cons, if_neg hkq]
      exact hk
  | cons c cs ih =>
    intro aL a' res hsub hrun k v hk
    have hcmem := hsub c (List.mem_cons_self c cs)
    simp only [childLoop] at hrun
    cases hq : IsModuleUpdated fs fcm cwd fuel aL c with
    | none =>
      rw [hq] at hrun
      cases hrun
    | some pr =>
      obtain ⟨a1, res1⟩ := pr
      rw [hq] at hrun
      have hk1 : lookupCache a1.analysisCache k = some v := hrec aL c a1 res1 hcmem hq k v hk
      cases res1 with
      | error e =>
        simp only [Option.some.injEq, Prod.mk.injEq] at hrun
        obtain ⟨h1, h2⟩ := hrun
        subst h1
        subst h2
        exact Or.inl hk1
      | ok b =>
        cases b with
        | true =>
          simp only [Option.some.injEq, Prod.mk.injEq] at hrun
          obtain ⟨h1, h2⟩ := hrun
          subst h1
          subst h2
          by_cases hkq : k = canonKey cwd q
          · refine Or.inr ⟨hkq, true, rfl, ?_⟩
            rw [setAnalysisCache, lookupCache_cons, if_pos hkq]
          · refine Or.inl ?_
            rw [setAnalysisCache, lookupCache_cons, if_neg hkq]
            exact hk1
        | false =>
          exact ih a1 a' res (fun c' hc' => hsub c' (List.mem_cons_of_mem c hc')) hrun k v hk1

theorem isModuleUpdated_preserves {fs : FileSystem} {fcm : String → Except String (List String)}
    {cwd : String} (hwf : ChildrenWF fcm) :
    ∀ fuel a q a' res, isAbs q = true → clean q = q →
      IsModuleUpdated fs fcm cwd fuel a q = some (a', res) →
      ∀ k v, lookupCache a.analysisCache k = some v →
        lookupCache a'.analysisCache k = some v := by
  intro fuel
  induction fuel with
  | zero =>
    intro a q a' res _ _ hrun
    rw [IsModuleUpdated_zero] at hrun
    cases hrun
  | succ fuel ih =>
    intro a q a' res habs hclean hrun k v hk
    rw [IsModuleUpdated_succ] at hrun
    have hkey : canonKey cwd q = q := canonKey_fixed cwd habs hclean
    cases hlk : lookupCache a.analysisCache q with
    | some b =>
      rw [analyzeStep_cacheHit (by rw [hclean, getAnalysisCache, hkey, hlk])] at hrun
      simp only [Option.some.injEq, Prod.mk.injEq] at hrun
      obtain ⟨h1, -⟩ := hrun
      subst h1
      exact hk
    | none =>
      have hget : getAnalysisCache a cwd (clean q) = none := by
        rw [hclean, getAnalysisCache, hkey, hlk]
      have hkq : k ≠ q := by
        intro h
        subst h
        rw [hk] at hlk
        cases hlk
      cases hex : fs.statExists q with
      | false =>
        rw [analyzeStep_missing hget (by rw [hclean, hex])] at hrun
        simp only [Option.some.injEq, Prod.mk.injEq] at hrun
        obtain ⟨h1, -⟩ := hrun
        subst h1
        rw [hclean, setAnalysisCache, hkey, lookupCache_cons, if_neg hkq]
        exact hk
      | true =>
        cases hd : hasDirectFileChanges fs cwd a.changedFiles q with
        | error e =>
          rw [analyzeStep_dirErr hget (by rw [hclean, hex]) (by rw [hclean, hd])] at hrun
          simp only [Option.some.injEq, Prod.mk.injEq] at hrun
          obtain ⟨h1, -⟩ := hrun
          subst h1
          exact hk
        | ok b =>
          cases b with
          | true =>
            rw [analyzeStep_direct hget (by rw [hclean, hex]) (by rw [hclean, hd])] at hrun
            simp only [Option.some.injEq, Prod.mk.injEq] at hrun
            obtain ⟨h1, -⟩ := hrun
            subst h1
            rw [hclean, setAnalysisCache, hkey, lookupCache_cons, if_neg hkq]
            exact hk
          | false =>
            cases hf : fcm q with
            | error e =>
              rw [analyzeStep_extractErr hget (by rw [hclean, hex]) (by rw [hclean, hd])
                (by rw [hclean, hf])] at hrun
              simp only [Option.some.injEq, Prod.mk.injEq] at hrun
              obtain ⟨h1, -⟩ := hrun
              subst h1
              rw [hclean, setAnalysisCache, hkey, lookupCache_cons, if_neg hkq]
              exact hk
            | ok cs =>
              rw [analyzeStep_children hget (by rw [hclean, hex]) (by rw [hclean, hd])
                (by rw [hclean, hf]), hclean] at hrun
              have hfate := childLoop_value_fate
                (fun aa c aa' rr hc hq2 =>
                  have hwfc := hwf q cs c hf hc
                  ih aa c aa' rr hwfc.1 hwfc.2 hq2)
                cs a a' res (fun c hc => hc) hrun k v hk
              rcases hfate with h | ⟨hkq2, -⟩
              · exact h
              · rw [hkey] at hkq2
                exact absurd hkq2 hkq

theorem isModuleUpdated_keeps_some {fs : FileSystem} {fcm : String → Except String (List String)}
    {cwd : String} (hwf : ChildrenWF fcm) {fuel : Nat} {a : Analyzer} {q : String}
    {a' : Analyzer} {res : Except String Bool}
    (habs : isAbs q = true) (hclean : clean q = q)
    (hrun : IsModuleUpdated fs fcm cwd fuel a q = some (a', res)) :
    ∀ k b, lookupCache a.analysisCache k = some b →
      ∃ b2, lookupCache a'.analysisCache k = some b2 :=
  fun k b hb => ⟨b, isModuleUpdated_preserves hwf fuel a q a' res habs hclean hrun k b hb⟩


/-- How a key `z` can transition from uncached to cached during one call
on `q` that returned `res`: it is `q` itself carrying the call's verdict
(`false` only with justification), or it was completed `true` by a nested
call — whose `true` short-circuits every enclosing frame, forcing
`res = ok true` — or it was completed `false` by a nested call, which
requires all of `z`'s children to hold cached verdicts. -/
def WriteShape (fs : FileSystem) (fcm : String → Except String (List String))
    (q : String) (res : Except String Bool) (a' : Analyzer) (z : String) (v : Bool) : Prop :=
  (z = q ∧ res = Except.ok v ∧ (v = false → FalseJustified fs fcm a' z)) ∨
  (v = true ∧ res = Except.ok true) ∨
  (v = false ∧ FalseJustified fs fcm a' z)

theorem childLoop_write_shape {fs : FileSystem} {fcm : String → Except String (List String)}
    {cwd : String} (hwf : ChildrenWF fcm) {fuel : Nat} {q : String} {cs0 : List String}
    (hkey : canonKey cwd q = q) (hf : fcm q = Except.ok cs0)
    (hrecW : ∀ aa c aa' rr, c ∈ cs0 →
      IsModuleUpdated fs fcm cwd fuel aa c = some (aa', rr) →
      ∀ z v, lookupCache aa.analysisCache z = none →
        lookupCache aa'.analysisCache z = some v → WriteShape fs fcm c rr aa' z v) :
    ∀ cs aL a' res, (∀ c, c ∈ cs → c ∈ cs0) →
      (∀ c, c ∈ cs0 → c ∉ cs → ∃ b, lookupCache aL.analysisCache c = some b) →
      childLoop (IsModuleUpdated fs fcm cwd fuel) cwd q aL cs = some (a', res) →
      ∀ z v, lookupCache aL.analysisCache z = none →
        lookupCache a'.analysisCache z = some v →
        WriteShape fs fcm q res a' z v := by
  intro cs
  induction cs with
  | nil =>
    intro aL a' res _ hproc hrun z v hz hzv
    simp only [childLoop, Option.some.injEq, Prod.mk.injEq] at hrun
    obtain ⟨h1, h2⟩ := hrun
    subst h1
    subst h2
    rw [setAnalysisCache, hkey, lookupCache_cons] at hzv
    by_cases hzq : z = q
    · rw [if_pos hzq] at hzv
      injection hzv with hv
      subst hv
      refine Or.inl ⟨hzq, rfl, fun _ => ?_⟩
      refine Or.inr (Or.inr ⟨cs0, by rw [hzq, hf], fun c hc => ?_⟩)
      obtain ⟨b, hb⟩ := hproc c hc (List.not_mem_nil c)
      rw [setAnalysisCache, hkey]
      exact lookupCache_keeps_cons q false aL.analysisCache c b hb
    · rw [if_neg hzq, hz] at hzv
      cases hzv
  | cons c cs ih =>
    intro aL a' res hsub hproc hrun z v hz hzv
    have hcmem := hsub c (List.mem_cons_self c cs)
    obtain ⟨hcabs, hcclean⟩ := hwf q cs0 c hf hcmem
    simp only [childLoop] at hrun
    cases hq : IsModuleUpdated fs fcm cwd fuel aL c with
    | none =>
      rw [hq] at hrun
      cases hrun
    | some pr =>
      obtain ⟨a1, res1⟩ := pr
      rw [hq] at hrun
      cases res1 with
      | error e1 =>
        simp only [Option.some.injEq, Prod.mk.injEq] at hrun
        obtain ⟨h1, h2⟩ := hrun
        subst h1
        subst h2
        rcases hrecW aL c a1 _ hcmem hq z v hz hzv with ⟨-, hres, -⟩ | ⟨-, hres⟩ | ⟨hv, hFJ⟩
        · cases hres
        · cases hres
        · exact Or.inr (Or.inr ⟨hv, hFJ⟩)
      | ok b =>
        cases b with
        | true =>
          simp only [Option.some.injEq, Prod.mk.injEq] at hrun
          obtain ⟨h1, h2⟩ := hrun
          subst h1
          subst h2
          rw [setAnalysisCache, hkey, lookupCache_cons] at hzv
          by_cases hzq : z = q
          · rw [if_pos hzq] at hzv
            injection hzv with hv
            subst hv
            exact Or.inl ⟨hzq, rfl, fun h => Bool.noConfusion h⟩
          · rw [if_neg hzq] at hzv
            rcases hrecW aL c a1 _ hcmem hq z v hz hzv with ⟨-, hres, -⟩ | ⟨hv, -⟩ | ⟨hv, hFJ⟩
            · injection hres with hv
              subst hv
              exact Or.inr (Or.inl ⟨rfl, rfl⟩)
            · exact Or.inr (Or.inl ⟨hv, rfl⟩)
            · refine Or.inr (Or.inr ⟨hv, falseJustified_mono (fun k b2 hb2 => ?_) hFJ⟩)
              rw [setAnalysisCache, hkey]
              exact lookupCache_keeps_cons q true a1.analysisCache k b2 hb2
        | false =>
          have hkeep1 : ∀ k b2, lookupCache aL.analysisCache k = some b2 →
              lookupCache a1.analysisCache k = some b2 :=
            fun k b2 hb2 => isModuleUpdated_preserves hwf fuel aL c a1 _ hcabs hcclean hq k b2 hb2
          have hproc1 : ∀ c', c' ∈ cs0 → c' ∉ cs →
              ∃ b2, lookupCache a1.analysisCache c' = some b2 := by
            intro c' hc' hnc
            by_cases hcc : c' = c
            · subst hcc
              exact ⟨false, isModuleUpdated_ok_writes_verdict fuel aL c' a1 false
                hcabs hcclean hq⟩
            · have hnc2 : c' ∉ c :: cs := by
                intro hmem
                rcases List.mem_cons.mp hmem with h | h
                · exact hcc h
                · exact hnc h
              obtain ⟨b2, hb2⟩ := hproc c' hc' hnc2
              exact ⟨b2, hkeep1 c' b2 hb2⟩
          cases hz1 : lookupCache a1.analysisCache z with
          | none =>
            exact ih a1 a' res (fun c' hc' => hsub c' (List.mem_cons_of_mem c hc'))
              hproc1 hrun z v hz1 hzv
          | some v0 =>
            have hshape0 : v0 = false ∧ FalseJustified fs fcm a1 z := by
              rcases hrecW aL c a1 _ hcmem hq z v0 hz hz1 with ⟨hzc, hres, hFJ⟩ | ⟨-, hres⟩ |
                ⟨hv, hFJ⟩
              · injection hres with hv
                exact ⟨hv.symm, hFJ hv.symm⟩
              · injection hres with hv
                cases hv
              · exact ⟨hv, hFJ⟩
            have hrecP : ∀ aa c' aa' rr, c' ∈ cs0 →
                IsModuleUpdated fs fcm cwd fuel aa c' = some (aa', rr) →
                ∀ k v2, lookupCache aa.analysisCache k = some v2 →
                  lookupCache aa'.analysisCache k = some v2 := by
              intro aa c' aa' rr hc' hq2
              have hwfc := hwf q cs0 c' hf hc'
              exact isModuleUpdated_preserves hwf fuel aa c' aa' rr hwfc.1 hwfc.2 hq2
            have hkeepLoop : ∀ k b2, lookupCache a1.analysisCache k = some b2 →
                ∃ b3, lookupCache a'.analysisCache k = some b3 := by
              intro k b2 hb2
              rcases childLoop_value_fate hrecP cs a1 a' res
                  (fun c' hc' => hsub c' (List.mem_cons_of_mem c hc')) hrun k b2 hb2 with
                h | ⟨-, r, -, hlk2⟩
              · exact ⟨b2, h⟩
              · exact ⟨r, hlk2⟩
            rcases childLoop_value_fate hrecP cs a1 a' res
                (fun c' hc' => hsub c' (List.mem_cons_of_mem c hc')) hrun z v0 hz1 with
              h | ⟨hkq2, r, hres2, hlk2⟩
            · rw [h] at hzv
              injection hzv with hv
              subst hv
              exact Or.inr (Or.inr ⟨hshape0.1,
                falseJustified_mono hkeepLoop hshape0.2⟩)
            · rw [hlk2] at hzv
              injection hzv with hv
              subst hv
              rw [hkey] at hkq2
              exact Or.inl ⟨hkq2, hres2, fun _ => falseJustified_mono hkeepLoop hshape0.2⟩

theorem childLoop_error_uncached {fs : FileSystem} {fcm : String → Except String (List String)}
    {cwd : String} (hwf : ChildrenWF fcm) {fuel : Nat} {q : String} {cs0 : List String}
    (hex : fs.statExists q = true) (hf : fcm q = Except.ok cs0)
    (hrecW : ∀ aa c aa' rr, c ∈ cs0 →
      IsModuleUpdated fs fcm cwd fuel aa c = some (aa', rr) →
      ∀ z v, lookupCache aa.analysisCache z = none →
        lookupCache aa'.analysisCache z = some v → WriteShape fs fcm c rr aa' z v)
    (hrecE : ∀ aa c aa' e1, c ∈ cs0 →
      IsModuleUpdated fs fcm cwd fuel aa c = some (aa', Except.error e1) →
      lookupCache aa'.analysisCache c = none) :
    ∀ cs aL a' e, (∀ c, c ∈ cs → c ∈ cs0) →
      (lookupCache aL.analysisCache q = none ∨ FalseJustified fs fcm aL q) →
      childLoop (IsModuleUpdated fs fcm cwd fuel) cwd q aL cs = some (a', Except.error e) →
      lookupCache a'.analysisCache q = none := by
  intro cs
  induction cs with
  | nil =>
    intro aL a' e _ _ hrun
    simp only [childLoop, Option.some.injEq, Prod.mk.injEq] at hrun
    obtain ⟨-, h2⟩ := hrun
    cases h2
  | cons c cs ih =>
    intro aL a' e hsub hIq hrun
    have hcmem := hsub c (List.mem_cons_self c cs)
    obtain ⟨hcabs, hcclean⟩ := hwf q cs0 c hf hcmem
    simp only [childLoop] at hrun
    cases hq : IsModuleUpdated fs fcm cwd fuel aL c with
    | none =>
      rw [hq] at hrun
      cases hrun
    | some pr =>
      obtain ⟨a1, res1⟩ := pr
      rw [hq] at hrun
      cases res1 with
      | error e1 =>
        simp only [Option.some.injEq, Prod.mk.injEq] at hrun
        obtain ⟨h1, -⟩ := hrun
        subst h1
        rcases hIq with hnone | hFJ
        · cases hq2 : lookupCache a1.analysisCache q with
          | none => rfl
          | some v =>
            rcases hrecW aL c a1 _ hcmem hq q v hnone hq2 with ⟨-, hres, -⟩ | ⟨-, hres⟩ |
              ⟨-, hFJ1⟩
            · cases hres
            · cases hres
            · rcases hFJ1 with hx | ⟨e2, hf2⟩ | ⟨cs2, hf2, hall⟩
              · rw [hex] at hx
                cases hx
              · rw [hf] at hf2
                cases hf2
              · rw [hf] at hf2
                injection hf2 with hcs2
                subst hcs2
                obtain ⟨b, hb⟩ := hall c hcmem
                rw [hrecE aL c a1 e1 hcmem hq] at hb
                cases hb
        · rcases hFJ with hx | ⟨e2, hf2⟩ | ⟨cs2, hf2, hall⟩
          · rw [hex] at hx
            cases hx
          · rw [hf] at hf2
            cases hf2
          · rw [hf] at hf2
            injection hf2 with hcs2
            subst hcs2
            obtain ⟨b, hb⟩ := hall c hcmem
            obtain ⟨-, hres⟩ := isModuleUpdated_cache_hit hcabs hcclean hb hq
            cases hres
      | ok b =>
        cases b with
        | true =>
          simp only [Option.some.injEq, Prod.mk.injEq] at hrun
          obtain ⟨-, h2⟩ := hrun
          cases h2
        | false =>
          refine ih a1 a' e (fun c' hc' => hsub c' (List.mem_cons_of_mem c hc')) ?_ hrun
          rcases hIq with hnone | hFJ
          · cases hq2 : lookupCache a1.analysisCache q with
            | none => exact Or.inl rfl
            | some v =>
              rcases hrecW aL c a1 _ hcmem hq q v hnone hq2 with ⟨-, hres, hFJ1⟩ | ⟨-, hres⟩ |
                ⟨-, hFJ1⟩
              · injection hres with hv
                exact Or.inr (hFJ1 hv.symm)
              · injection hres with hv
                cases hv
              · exact Or.inr hFJ1
          · exact Or.inr (falseJustified_mono (fun k b2 hb2 =>
              isModuleUpdated_keeps_some hwf hcabs hcclean hq k b2 hb2) hFJ)

theorem isModuleUpdated_write_shape {fs : FileSystem}
    {fcm : String → Except String (List String)} {cwd : String} (hwf : ChildrenWF fcm) :
    ∀ fuel a q a' res, isAbs q = true → clean q = q →
      IsModuleUpdated fs fcm cwd fuel a q = some (a', res) →
      (∀ z v, lookupCache a.analysisCache z = none →
        lookupCache a'.analysisCache z = some v → WriteShape fs fcm q res a' z v) ∧
      (∀ e, res = Except.error e → lookupCache a'.analysisCache q = none) := by
  intro fuel
  induction fuel with
  | zero =>
    intro a q a' res _ _ hrun
    rw [IsModuleUpdated_zero] at hrun
    cases hrun
  | succ fuel ih =>
    intro a q a' res habs hclean hrun
    rw [IsModuleUpdated_succ] at hrun
    have hkey : canonKey cwd q = q := canonKey_fixed cwd habs hclean
    cases hlk : lookupCache a.analysisCache q with
    | some b =>
      rw [analyzeStep_cacheHit (by rw [hclean, getAnalysisCache, hkey, hlk])] at hrun
      simp only [Option.some.injEq, Prod.mk.injEq] at hrun
      obtain ⟨h1, h2⟩ := hrun
      subst h1
      subst h2
      constructor
      · intro z v hz hzv
        rw [hz] at hzv
        cases hzv
      · intro e he
        cases he
    | none =>
      have hget : getAnalysisCache a cwd (clean q) = none := by
        rw [hclean, getAnalysisCache, hkey, hlk]
      cases hex : fs.statExists q with
      | false =>
        rw [analyzeStep_missing hget (by rw [hclean, hex])] at hrun
        simp only [Option.some.injEq, Prod.mk.injEq] at hrun
        obtain ⟨h1, h2⟩ := hrun
        subst h1
        subst h2
        constructor
        · intro z v hz hzv
          rw [hclean, setAnalysisCache, hkey, lookupCache_cons] at hzv
          by_cases hzq : z = q
          · rw [if_pos hzq] at hzv
            injection hzv with hv
            subst hv
            exact Or.inl ⟨hzq, rfl, fun _ => Or.inl (by rw [hzq]; exact hex)⟩
          · rw [if_neg hzq] at hzv
            have hzv2 : lookupCache a.analysisCache z = some v := hzv
            rw [hz] at hzv2
            cases hzv2
        · intro e he
          cases he
      | true =>
        cases hd : hasDirectFileChanges fs cwd a.changedFiles q with
        | error e0 =>
          rw [analyzeStep_dirErr hget (by rw [hclean, hex]) (by rw [hclean, hd])] at hrun
          simp only [Option.some.injEq, Prod.mk.injEq] at hrun
          obtain ⟨h1, h2⟩ := hrun
          subst h1
          subst h2
          constructor
          · intro z v hz hzv
            rw [hz] at hzv
            cases hzv
          · intro e he
            exact hlk
        | ok b =>
          cases b with
          | true =>
            rw [analyzeStep_direct hget (by rw [hclean, hex]) (by rw [hclean, hd])] at hrun
            simp only [Option.some.injEq, Prod.mk.injEq] at hrun
            obtain ⟨h1, h2⟩ := hrun
            subst h1
            subst h2
            constructor
            · intro z v hz hzv
              rw [hclean, setAnalysisCache, hkey, lookupCache_cons] at hzv
              by_cases hzq : z = q
              · rw [if_pos hzq] at hzv
                injection hzv with hv
                subst hv
                exact Or.inl ⟨hzq, rfl, fun h => Bool.noConfusion h⟩
              · rw [if_neg hzq, hz] at hzv
                cases hzv
            · intro e he
              cases he
          | false =>
            cases hf : fcm q with
            | error e0 =>
              rw [analyzeStep_extractErr hget (by rw [hclean, hex]) (by rw [hclean, hd])
                (by rw [hclean, hf])] at hrun
              simp only [Option.some.injEq, Prod.mk.injEq] at hrun
              obtain ⟨h1, h2⟩ := hrun
              subst h1
              subst h2
              constructor
              · intro z v hz hzv
                rw [hclean, setAnalysisCache, hkey, lookupCache_cons] at hzv
                by_cases hzq : z = q
                · rw [if_pos hzq] at hzv
                  injection hzv with hv
                  subst hv
                  exact Or.inl ⟨hzq, rfl, fun _ =>
                    Or.inr (Or.inl ⟨e0, by rw [hzq]; exact hf⟩)⟩
                · rw [if_neg hzq] at hzv
                  have hzv2 : lookupCache a.analysisCache z = some v := hzv
                  rw [hz] at hzv2
                  cases hzv2
              · intro e he
                cases he
            | ok cs =>
              rw [analyzeStep_children hget (by rw [hclean, hex]) (by rw [hclean, hd])
                (by rw [hclean, hf]), hclean] at hrun
              have hrecW : ∀ aa c aa' rr, c ∈ cs →
                  IsModuleUpdated fs fcm cwd fuel aa c = some (aa', rr) →
                  ∀ z v, lookupCache aa.analysisCache z = none →
                    lookupCache aa'.analysisCache z = some v →
                    WriteShape fs fcm c rr aa' z v := by
                intro aa c aa' rr hc hq2
                have hwfc := hwf q cs c hf hc
                exact (ih aa c aa' rr hwfc.1 hwfc.2 hq2).1
              have hrecE : ∀ aa c aa' e1, c ∈ cs →
                  IsModuleUpdated fs fcm cwd fuel aa c = some (aa', Except.error e1) →
                  lookupCache aa'.analysisCache c = none := by
                intro aa c aa' e1 hc hq2
                have hwfc := hwf q cs c hf hc
                exact (ih aa c aa' _ hwfc.1 hwfc.2 hq2).2 e1 rfl
              constructor
              · intro z v hz hzv
                exact childLoop_write_shape hwf hkey hf hrecW cs a a' res
                  (fun c hc => hc) (fun c hc hnc => absurd hc hnc) hrun z v hz hzv
              · intro e he
                subst he
                exact childLoop_error_uncached hwf hex hf hrecW hrecE cs a a' e
                  (fun c hc => hc) (Or.inl hlk) hrun


/-! ## Claim theorems -/

/-- C1: `IsModuleUpdated m` returns `true` exactly when the normalized
directory exists and either some immediate non-directory entry is in the
changed-file set, or child extraction succeeds and some extracted child is
(recursively) updated, the child evaluation being an OR-reduction that
short-circuits on the first `true` child without visiting the remaining
children; a non-existent directory yields `false` without error. -/
theorem c1_isModuleUpdated_characterization :
    (∀ fs fcm cwd changed fuel a m a' r,
      ChildrenWF fcm → CacheOK fs fcm cwd changed a → a.changedFiles = changed →
      isAbs m = true → clean m = m →
      IsModuleUpdated fs fcm cwd fuel a m = some (a', Except.ok r) →
      (r = true ↔ (fs.statExists m = true ∧
        (hasDirectFileChanges fs cwd changed m = Except.ok true ∨
          ∃ cs, fcm m = Except.ok cs ∧ ∃ c, c ∈ cs ∧ Updated fs fcm cwd changed c))) ∧
      (fs.statExists m = false → r = false))
    ∧ (∀ recur cwd p a c cs cs' a1,
        recur a c = some (a1, Except.ok true) →
        childLoop recur cwd p a (c :: cs) = childLoop recur cwd p a (c :: cs')) := by
  constructor
  · intro fs fcm cwd changed fuel a m a' r hwf hca hch habs hclean hrun
    obtain ⟨-, -, h3⟩ := isModuleUpdated_sound hwf fuel a m a' _ hca hch habs hclean hrun
    obtain ⟨-, hiff⟩ := h3 r rfl
    constructor
    · rw [hiff]
      exact updated_iff
    · intro hex
      cases hr : r with
      | false => rfl
      | true =>
        have hu := hiff.mp hr
        rcases updated_iff.mp hu with ⟨hex2, -⟩
        rw [hex] at hex2
        cases hex2
  · intro recur cwd p a c cs cs' a1 hq
    simp only [childLoop, hq]

/-- C2: with the module directory existing and uncached, an extraction
failure is fail-open — `IsModuleUpdated` returns `false` without error,
caching the `false` verdict and emitting a warning — while a directory
read failure during the direct-change check is fail-closed: the call
returns an error wrapping the underlying cause. -/
theorem c2_fail_open_extraction_fail_closed_read :
    ∀ fs fcm cwd a m fuel,
      lookupCache a.analysisCache m = none → isAbs m = true → clean m = m →
      fs.statExists m = true →
      (∀ e, hasDirectFileChanges fs cwd a.changedFiles m = Except.ok false →
        fcm m = Except.error e →
        IsModuleUpdated fs fcm cwd (fuel + 1) a m =
          some (setAnalysisCache (addWarning a (Warning.extractionFailed m e)) cwd m false,
            Except.ok false) ∧
        lookupCache (setAnalysisCache (addWarning a (Warning.extractionFailed m e)) cwd m
            false).analysisCache m = some false) ∧
      (∀ e2, hasDirectFileChanges fs cwd a.changedFiles m = Except.error e2 →
        IsModuleUpdated fs fcm cwd (fuel + 1) a m =
          some (a, Except.error ("failed to check direct changes in " ++ m ++ ": " ++ e2))) := by
  intro fs fcm cwd a m fuel hlk habs hclean hex
  have hget : getAnalysisCache a cwd (clean m) = none := by
    rw [hclean, getAnalysisCache, canonKey_fixed cwd habs hclean, hlk]
  constructor
  · intro e hd hf
    constructor
    · rw [IsModuleUpdated_succ,
        analyzeStep_extractErr hget (by rw [hclean, hex]) (by rw [hclean, hd])
          (by rw [hclean, hf]), hclean]
    · rw [setAnalysisCache, canonKey_fixed cwd habs hclean, lookupCache_cons, if_pos rfl]
  · intro e2 hd
    rw [IsModuleUpdated_succ,
      analyzeStep_dirErr hget (by rw [hclean, hex]) (by rw [hclean, hd]), hclean]

/-- C3: every verdict-returning path of `IsModuleUpdated` leaves the
verdict in the cache under the canonical key, every stored key is an
absolute lexically-cleaned path, and equivalent spellings of a directory
collide on one canonical key. -/
theorem c3_cache_write_discipline :
    (∀ fs fcm cwd changed fuel a m a' r,
      ChildrenWF fcm → CacheOK fs fcm cwd changed a → a.changedFiles = changed →
      isAbs m = true → clean m = m →
      IsModuleUpdated fs fcm cwd fuel a m = some (a', Except.ok r) →
      lookupCache a'.analysisCache m = some r ∧
      ∀ k v, lookupCache a'.analysisCache k = some v → isAbs k = true ∧ clean k = k)
    ∧ (∀ cwd, canonKey cwd "/proj/x/../sub/./p" = canonKey cwd "/proj/sub/p") := by
  constructor
  · intro fs fcm cwd changed fuel a m a' r hwf hca hch habs hclean hrun
    obtain ⟨hca', -, h3⟩ := isModuleUpdated_sound hwf fuel a m a' _ hca hch habs hclean hrun
    obtain ⟨hlkm, -⟩ := h3 r rfl
    exact ⟨hlkm, fun k v h => ⟨(hca' k v h).1, (hca' k v h).2.1⟩⟩
  · intro cwd
    rfl

/-- C4: for a fixed filesystem and changed-file set, the verdict computed
on an engine whose cache satisfies the cache invariant (as any cache
populated by earlier queries does) equals the verdict a freshly
constructed engine computes for the same directory. -/
theorem c4_memoization_consistent :
    ∀ fs fcm cwd changed fuel1 fuel2 a m a1 a2 r1 r2,
      ChildrenWF fcm → changed.map (absPath cwd) = changed →
      CacheOK fs fcm cwd changed a → a.changedFiles = changed →
      isAbs m = true → clean m = m →
      IsModuleUpdated fs fcm cwd fuel1 (NewAnalyzer cwd changed) m = some (a1, Except.ok r1) →
      IsModuleUpdated fs fcm cwd fuel2 a m = some (a2, Except.ok r2) →
      r1 = r2 := by
  intro fs fcm cwd changed fuel1 fuel2 a m a1 a2 r1 r2 hwf hnorm hca hch habs hclean h1 h2
  have hca0 : CacheOK fs fcm cwd changed (NewAnalyzer cwd changed) := by
    intro k v h
    simp [NewAnalyzer, lookupCache] at h
  have hch0 : (NewAnalyzer cwd changed).changedFiles = changed := hnorm
  obtain ⟨-, -, h3⟩ := isModuleUpdated_sound hwf fuel1 _ m a1 _ hca0 hch0 habs hclean h1
  obtain ⟨-, hiff1⟩ := h3 r1 rfl
  obtain ⟨-, -, h4⟩ := isModuleUpdated_sound hwf fuel2 a m a2 _ hca hch habs hclean h2
  obtain ⟨-, hiff2⟩ := h4 r2 rfl
  by_cases hu : Updated fs fcm cwd changed m
  · rw [hiff1.mpr hu, hiff2.mpr hu]
  · have e1 : r1 = false := by
      cases r1 with
      | false => rfl
      | true => exact absurd (hiff1.mp rfl) hu
    have e2 : r2 = false := by
      cases r2 with
      | false => rfl
      | true => exact absurd (hiff2.mp rfl) hu
    rw [e1, e2]

/-- C5: after `IsModuleUpdated` returns a verdict, calling it again on the
resulting engine returns the same verdict with the engine unchanged, with
recursion budget 1 (no recursive work) and under an arbitrary filesystem
and extractor (no filesystem access, no parsing, no cache mutation): a
pure cache hit. -/
theorem c5_idempotent_second_call_pure_hit :
    ∀ fs fcm cwd changed fuel a m a' r,
      ChildrenWF fcm → CacheOK fs fcm cwd changed a → a.changedFiles = changed →
      isAbs m = true → clean m = m →
      IsModuleUpdated fs fcm cwd fuel a m = some (a', Except.ok r) →
      ∀ fs2 fcm2, IsModuleUpdated fs2 fcm2 cwd 1 a' m = some (a', Except.ok r) := by
  intro fs fcm cwd changed fuel a m a' r hwf hca hch habs hclean hrun fs2 fcm2
  obtain ⟨-, -, h3⟩ := isModuleUpdated_sound hwf fuel a m a' _ hca hch habs hclean hrun
  obtain ⟨hlk, -⟩ := h3 r rfl
  have hone : IsModuleUpdated fs2 fcm2 cwd 1 a' m =
      analyzeStep fs2 fcm2 cwd (IsModuleUpdated fs2 fcm2 cwd 0) a' m := rfl
  rw [hone,
    analyzeStep_cacheHit (by rw [hclean, getAnalysisCache, canonKey_fixed cwd habs hclean, hlk])]

/-- C6: `ConvertToRelativePath` on the specified concrete inputs; a path
lying under the base path has the shared prefix and leading separator
stripped (empty for identical paths); a path whose cleaned form does not
lexically start with the cleaned base falls back to the general
relative-path computation. -/
theorem c6_convertToRelativePath :
    ConvertToRelativePath "/root/project" "/root/project/a/b" = Except.ok "a/b" ∧
    ConvertToRelativePath "/root/project" "/root/project" = Except.ok "" ∧
    ConvertToRelativePath "/root/project" "/root/other" = Except.ok "../other" ∧
    (∀ base s, isAbs base = true → clean base = base →
      clean (base ++ "/" ++ s) = base ++ "/" ++ s →
      ConvertToRelativePath base (base ++ "/" ++ s) = Except.ok s) ∧
    (∀ base p2, isAbs base = true → isAbs p2 = true →
      hasPfx (clean p2) (clean base) = false →
      ConvertToRelativePath base p2 = relPath (clean base) (clean p2)) := by
  refine ⟨by decide, by decide, by decide, convertToRelativePath_under, ?_⟩
  intro base p2 hb hp2 hpfx
  unfold ConvertToRelativePath
  rw [if_neg (by rw [hb]; simp), if_neg (by rw [hp2]; simp), if_pos hpfx]

/-- C7: on a readable module directory whose `.tf` files all parse,
`FindChildModules` returns exactly the declared module sources that are
not absolute and that resolve (joined to the module directory) to an
existing local path, each joined to the module directory and lexically
cleaned, in declaration order with duplicates preserved; absolute and
non-locally-existing (remote) sources are silently dropped. -/
theorem c7_findChildModules_filters_sources :
    ∀ pe dir entries (srcs : String → List String),
      pe.fs.readDir dir = Except.ok entries →
      (∀ f, f ∈ tfFileList dir entries → pe.parseSources f = Except.ok (srcs f)) →
      FindChildModules pe dir = Except.ok
        (((tfFileList dir entries).flatMap srcs).filterMap (fun source =>
          if pe.fs.statExists (joinPath dir source) && !(isAbs source)
          then some (clean (joinPath dir source)) else none)) := by
  intro pe dir entries srcs hrd hparse
  unfold FindChildModules findTerraformFiles
  rw [hrd]
  show collectChildModules pe dir (tfFileList dir entries) = _
  rw [collectChildModules_ok pe dir (tfFileList dir entries) srcs hparse, resolveSources_eq]

/-- C8: `AnalyzeRootModules` is all-or-nothing: an error analyzing any
root aborts the whole batch with an error regardless of the remaining
roots, and on success the output is exactly the input roots whose verdict
on the single shared engine is `true`, in input order, each converted to a
path relative to the base path. -/
theorem c8_analyzeRootModules :
    (∀ fs fcm cwd basePath fuel a d ds a1 e,
      IsModuleUpdated fs fcm cwd fuel a d = some (a1, Except.error e) →
      rootsLoop fs fcm cwd basePath fuel a (d :: ds) =
        some (Except.error ("failed to analyze module " ++ d ++ ": " ++ e)))
    ∧ (∀ fs fcm cwd changed basePath fuel ds l (p : String → Bool),
      ChildrenWF fcm → changed.map (absPath cwd) = changed →
      (∀ d, d ∈ ds → isAbs d = true ∧ clean d = d) →
      (∀ d, d ∈ ds → (p d = true ↔ Updated fs fcm cwd changed d)) →
      AnalyzeRootModules fs fcm cwd fuel ds changed basePath = some (Except.ok l) →
      l = (ds.filter p).map (relOutput cwd basePath)) := by
  constructor
  · intro fs fcm cwd basePath fuel a d ds a1 e hq
    simp only [rootsLoop, hq]
  · intro fs fcm cwd changed basePath fuel ds l p hwf hnorm hd hp hrun
    unfold AnalyzeRootModules at hrun
    exact rootsLoop_filter hwf p ds (NewAnalyzer cwd changed) l
      (by intro k v h; simp [NewAnalyzer, lookupCache] at h) hnorm hd hp hrun

/-- C9: on a module graph with a measure decreasing along references (an
acyclic reference relation of bounded chain depth) `IsModuleUpdated`
terminates once the recursion budget exceeds the measure; and on a
concrete reference cycle with no direct change the recursion re-enters the
same unfinished node, so no recursion budget suffices. -/
theorem c9_termination_vs_cycle :
    (∀ fs fcm cwd mu, ChildrenWF fcm → MeasuredAcyclic fcm mu →
      ∀ fuel a m, isAbs m = true → clean m = m → mu m < fuel →
        IsModuleUpdated fs fcm cwd fuel a m ≠ none)
    ∧ (∀ fuel, IsModuleUpdated cycFS cycFCM "/w" fuel (NewAnalyzer "/w" []) "/m" = none) :=
  ⟨fun _ _ _ mu hwf hmu => isModuleUpdated_total hwf mu hmu, cyc_isModuleUpdated_none⟩

/-- C10: when `IsModuleUpdated` returns an error, no cache entry is
written for the queried directory's canonical key in that call — a
direct-change read error leaves the analyzer completely untouched, and an
error propagated from a child analysis leaves the queried key's entry
unchanged while retaining every entry of completed sub-analyses; this
holds for every module graph, cyclic ones included. -/
theorem c10_error_atomicity :
    (∀ fs fcm cwd a m fuel e,
      lookupCache a.analysisCache m = none → isAbs m = true → clean m = m →
      fs.statExists m = true →
      hasDirectFileChanges fs cwd a.changedFiles m = Except.error e →
      IsModuleUpdated fs fcm cwd (fuel + 1) a m =
        some (a, Except.error ("failed to check direct changes in " ++ m ++ ": " ++ e)))
    ∧ (∀ fs fcm cwd fuel a m a' e,
      ChildrenWF fcm → isAbs m = true → clean m = m →
      IsModuleUpdated fs fcm cwd fuel a m = some (a', Except.error e) →
      lookupCache a'.analysisCache m = lookupCache a.analysisCache m ∧
      ∀ k v, lookupCache a.analysisCache k = some v →
        lookupCache a'.analysisCache k = some v) := by
  constructor
  · intro fs fcm cwd a m fuel e hlk habs hclean hex hd
    have hget : getAnalysisCache a cwd (clean m) = none := by
      rw [hclean, getAnalysisCache, canonKey_fixed cwd habs hclean, hlk]
    rw [IsModuleUpdated_succ,
      analyzeStep_dirErr hget (by rw [hclean, hex]) (by rw [hclean, hd]), hclean]
  · intro fs fcm cwd fuel a m a' e hwf habs hclean hrun
    have hpres := isModuleUpdated_preserves hwf fuel a m a' _ habs hclean hrun
    refine ⟨?_, hpres⟩
    cases hlk : lookupCache a.analysisCache m with
    | some v => rw [hpres m v hlk]
    | none =>
      rw [(isModuleUpdated_write_shape hwf fuel a m a' _ habs hclean hrun).2 e rfl]

/-! ## A concrete witness world -/

/-- A small filesystem: root module `/proj/p` referencing child `/proj/c`
(which has the changed file), leaf `/proj/q`, unparsable `/proj/x`,
unreadable `/proj/r`, and `/proj/e` referencing the unreadable one. -/
def wFS : FileSystem :=
  { statExists := fun p =>
      p = "/proj/p" || p = "/proj/c" || p = "/proj/q" || p = "/proj/x" ||
        p = "/proj/r" || p = "/proj/e"
    readDir := fun p =>
      if p = "/proj/r" then Except.error "permission denied"
      else if p = "/proj/p" || p = "/proj/c" || p = "/proj/q" || p = "/proj/e" then
        Except.ok [{ name := "main.tf", isDir := false }]
      else if p = "/proj/x" then Except.ok []
      else Except.error "no such directory" }

/-- The declaration extractor of the witness world. -/
def wFCM : String → Except String (List String) :=
  fun p =>
    if p = "/proj/p" then Except.ok ["/proj/c"]
    else if p = "/proj/c" then Except.ok []
    else if p = "/proj/q" then Except.ok []
    else if p = "/proj/e" then Except.ok ["/proj/r"]
    else Except.error "parse error"

/-- The changed-file set of the witness world. -/
def wChanged : List String := ["/proj/c/main.tf"]

/-- The reference-depth measure of the witness world. -/
def wMu : String → Nat := fun d => if d = "/proj/p" || d = "/proj/e" then 1 else 0

/-- The analyzer state after analyzing `/proj/p`. -/
def wAF : Analyzer :=
  { changedFiles := ["/proj/c/main.tf"]
    analysisCache := [("/proj/p", true), ("/proj/c", true)]
    warnings := [] }

example : IsModuleUpdated wFS wFCM "/w" 3 (NewAnalyzer "/w" wChanged) "/proj/p" =
    some (wAF, Except.ok true) := by decide

example : AnalyzeRootModules wFS wFCM "/w" 3 ["/proj/p", "/proj/q"] wChanged "/proj" =
    some (Except.ok ["p"]) := by decide

example : IsModuleUpdated wFS wFCM "/w" 3 (NewAnalyzer "/w" wChanged) "/proj/e" =
    some (NewAnalyzer "/w" wChanged,
      Except.error ("failed to analyze child module /proj/r: " ++
        "failed to check direct changes in /proj/r: " ++
        "failed to read directory /proj/r: permission denied")) := by decide

theorem wFCM_wf : ChildrenWF wFCM := by
  intro d cs c h hc
  unfold wFCM at h
  by_cases h1 : d = "/proj/p"
  · rw [if_pos h1] at h
    injection h with hcs
    subst hcs
    have hc' : c = "/proj/c" := by simpa using hc
    subst hc'
    exact ⟨by decide, by decide⟩
  · rw [if_neg h1] at h
    by_cases h2 : d = "/proj/c"
    · rw [if_pos h2] at h
      injection h with hcs
      subst hcs
      cases hc
    · rw [if_neg h2] at h
      by_cases h3 : d = "/proj/q"
      · rw [if_pos h3] at h
        injection h with hcs
        subst hcs
        cases hc
      · rw [if_neg h3] at h
        by_cases h4 : d = "/proj/e"
        · rw [if_pos h4] at h
          injection h with hcs
          subst hcs
          have hc' : c = "/proj/r" := by simpa using hc
          subst hc'
          exact ⟨by decide, by decide⟩
        · rw [if_neg h4] at h
          cases h

theorem wMu_ok : MeasuredAcyclic wFCM wMu := by
  intro d cs c h hc
  unfold wFCM at h
  by_cases h1 : d = "/proj/p"
  · rw [if_pos h1] at h
    injection h with hcs
    subst hcs
    have hc' : c = "/proj/c" := by simpa using hc
    subst hc'
    subst h1
    decide
  · rw [if_neg h1] at h
    by_cases h2 : d = "/proj/c"
    · rw [if_pos h2] at h
      injection h with hcs
      subst hcs
      cases hc
    · rw [if_neg h2] at h
      by_cases h3 : d = "/proj/q"
      · rw [if_pos h3] at h
        injection h with hcs
        subst hcs
        cases hc
      · rw [if_neg h3] at h
        by_cases h4 : d = "/proj/e"
        · rw [if_pos h4] at h
          injection h with hcs
          subst hcs
          have hc' : c = "/proj/r" := by simpa using hc
          subst hc'
          subst h4
          decide
        · rw [if_neg h4] at h
          cases h

theorem wUpdated_c : Updated wFS wFCM "/w" wChanged "/proj/c" :=
  Updated.direct (by decide) (by decide)

theorem wUpdated_p : Updated wFS wFCM "/w" wChanged "/proj/p" :=
  @Updated.viaChild wFS wFCM "/w" wChanged "/proj/p" "/proj/c" ["/proj/c"]
    (by decide) (by decide) (by decide) wUpdated_c

theorem wNotUpdated_q : ¬ Updated wFS wFCM "/w" wChanged "/proj/q" := by
  intro hu
  rcases updated_iff.mp hu with ⟨-, hd | ⟨cs, hcs, c, hc, -⟩⟩
  · have hh : hasDirectFileChanges wFS "/w" wChanged "/proj/q" = Except.ok false := by decide
    rw [hh] at hd
    cases hd
  · have hh : wFCM "/proj/q" = Except.ok [] := by decide
    rw [hh] at hcs
    injection hcs with h'
    subst h'
    cases hc

theorem wAF_cacheOK : CacheOK wFS wFCM "/w" wChanged wAF := by
  intro k v h
  have h' : lookupCache [("/proj/p", true), ("/proj/c", true)] k = some v := h
  rw [lookupCache_cons] at h'
  by_cases h1 : k = "/proj/p"
  · subst h1
    rw [if_pos rfl] at h'
    injection h' with hv
    subst hv
    exact ⟨by decide, by decide, iff_of_true rfl wUpdated_p⟩
  · rw [if_neg h1, lookupCache_cons] at h'
    by_cases h2 : k = "/proj/c"
    · subst h2
      rw [if_pos rfl] at h'
      injection h' with hv
      subst hv
      exact ⟨by decide, by decide, iff_of_true rfl wUpdated_c⟩
    · rw [if_neg h2] at h'
      cases h'

/-- A graph with a reference cycle in a branch the analysis never
reaches: `/a` references the unreadable `/r` and the self-looping `/z`.
The error on `/r` aborts the analysis of `/a` before `/z` is visited, so
the call returns a child-propagated error even though the graph is
cyclic. -/
def probeFS : FileSystem :=
  { statExists := fun p => p = "/a" || p = "/r" || p = "/z"
    readDir := fun p =>
      if p = "/r" then Except.error "permission denied"
      else if p = "/a" || p = "/z" then Except.ok [{ name := "main.tf", isDir := false }]
      else Except.error "no such directory" }

/-- The extractor of the cyclic-but-unreached probe graph. -/
def probeFCM : String → Except String (List String) :=
  fun p =>
    if p = "/a" then Except.ok ["/r", "/z"]
    else if p = "/z" then Except.ok ["/z"]
    else Except.error "parse error"

example : IsModuleUpdated probeFS probeFCM "/w" 3 (NewAnalyzer "/w" []) "/a" =
    some (NewAnalyzer "/w" [],
      Except.error ("failed to analyze child module /r: " ++
        "failed to check direct changes in /r: " ++
        "failed to read directory /r: permission denied")) := by decide

example : lookupCache (NewAnalyzer "/w" ([] : List String)).analysisCache "/a" = none := by
  decide


/-! ## Witnesses -/

/-- C1 witness: the characterization instantiated on the concrete run of
`/proj/p` (verdict `true` via its updated child `/proj/c`). -/
theorem c1_w :
    (true = true ↔ (wFS.statExists "/proj/p" = true ∧
      (hasDirectFileChanges wFS "/w" wChanged "/proj/p" = Except.ok true ∨
        ∃ cs, wFCM "/proj/p" = Except.ok cs ∧
          ∃ c, c ∈ cs ∧ Updated wFS wFCM "/w" wChanged c))) ∧
    (wFS.statExists "/proj/p" = false → true = false) :=
  c1_isModuleUpdated_characterization.1 wFS wFCM "/w" wChanged 3
    (NewAnalyzer "/w" wChanged) "/proj/p" wAF true wFCM_wf
    (fun k v h => by simp [NewAnalyzer, lookupCache] at h)
    (by decide) (by decide) (by decide) (by decide)

/-- C2 witness: the unparsable module `/proj/x` yields `false` with the
verdict cached and a warning recorded; the unreadable module `/proj/r`
propagates a wrapped error. -/
theorem c2_w :
    (IsModuleUpdated wFS wFCM "/w" 1 (NewAnalyzer "/w" wChanged) "/proj/x" =
      some (setAnalysisCache (addWarning (NewAnalyzer "/w" wChanged)
        (Warning.extractionFailed "/proj/x" "parse error")) "/w" "/proj/x" false,
        Except.ok false) ∧
      lookupCache (setAnalysisCache (addWarning (NewAnalyzer "/w" wChanged)
        (Warning.extractionFailed "/proj/x" "parse error")) "/w" "/proj/x"
        false).analysisCache "/proj/x" = some false) ∧
    (IsModuleUpdated wFS wFCM "/w" 1 (NewAnalyzer "/w" wChanged) "/proj/r" =
      some (NewAnalyzer "/w" wChanged,
        Except.error ("failed to check direct changes in " ++ "/proj/r" ++ ": " ++
          "failed to read directory /proj/r: permission denied"))) := by
  have h1 := c2_fail_open_extraction_fail_closed_read wFS wFCM "/w"
    (NewAnalyzer "/w" wChanged) "/proj/x" 0 (by decide) (by decide) (by decide) (by decide)
  have h2 := c2_fail_open_extraction_fail_closed_read wFS wFCM "/w"
    (NewAnalyzer "/w" wChanged) "/proj/r" 0 (by decide) (by decide) (by decide) (by decide)
  exact ⟨h1.1 "parse error" (by decide) (by decide),
    h2.2 "failed to read directory /proj/r: permission denied" (by decide)⟩

/-- C3 witness: after the concrete run on `/proj/p` the verdict is cached
under the canonical key, which is absolute and cleaned. -/
theorem c3_w :
    lookupCache wAF.analysisCache "/proj/p" = some true ∧
    (isAbs "/proj/p" = true ∧ clean "/proj/p" = "/proj/p") := by
  have h := c3_cache_write_discipline.1 wFS wFCM "/w" wChanged 3
    (NewAnalyzer "/w" wChanged) "/proj/p" wAF true wFCM_wf
    (fun k v hh => by simp [NewAnalyzer, lookupCache] at hh)
    (by decide) (by decide) (by decide) (by decide)
  exact ⟨h.1, h.2 "/proj/p" true h.1⟩

/-- C4 witness: the verdict for `/proj/p` on a fresh engine and on the
engine already holding the verdicts of an earlier query agree. -/
theorem c4_w : true = true :=
  c4_memoization_consistent wFS wFCM "/w" wChanged 3 1 wAF "/proj/p"
    wAF wAF true true wFCM_wf (by decide) wAF_cacheOK (by decide)
    (by decide) (by decide) (by decide) (by decide)

/-- C5 witness: re-querying `/proj/p` on the engine produced by the first
call is a pure cache hit — even with recursion budget 1 and a completely
different filesystem and extractor the same verdict returns and the
engine is unchanged. -/
theorem c5_w :
    IsModuleUpdated cycFS cycFCM "/w" 1 wAF "/proj/p" = some (wAF, Except.ok true) :=
  c5_idempotent_second_call_pure_hit wFS wFCM "/w" wChanged 3
    (NewAnalyzer "/w" wChanged) "/proj/p" wAF true wFCM_wf
    (fun k v h => by simp [NewAnalyzer, lookupCache] at h)
    (by decide) (by decide) (by decide) (by decide) cycFS cycFCM

/-- C6 witness: the in-scope case instantiated at a concrete base and
suffix. -/
theorem c6_w :
    ConvertToRelativePath "/root/project" ("/root/project" ++ "/" ++ "a/b") =
      Except.ok "a/b" :=
  c6_convertToRelativePath.2.2.2.1 "/root/project" "a/b" (by decide) (by decide) (by decide)

/-- The terraform parse environment of the C7 witness: one `.tf` file
declaring a duplicate local child, an absolute source, a remote source and
an ascending local source. -/
def wPE : ParseEnv :=
  { fs :=
      { statExists := fun p => p = "/m/child" || p = "/m/abs" || p = "/m2"
        readDir := fun p =>
          if p = "/m" then Except.ok
            [{ name := "main.tf", isDir := false }, { name := "sub", isDir := true },
              { name := "README.md", isDir := false }]
          else Except.error "no such directory" }
    parseSources := fun f =>
      if f = "/m/main.tf" then
        Except.ok ["./child", "./child", "/abs", "git::example.com-mod", "../m2"]
      else Except.error "parse failure" }

/-- C7 witness: the duplicate local child is kept twice in declaration
order, the ascending local reference resolves, and the absolute and remote
sources are dropped. -/
theorem c7_w : FindChildModules wPE "/m" = Except.ok ["/m/child", "/m/child", "/m2"] := by
  have hl : tfFileList "/m"
      [{ name := "main.tf", isDir := false }, { name := "sub", isDir := true },
        { name := "README.md", isDir := false }] = ["/m/main.tf"] := by decide
  have h := c7_findChildModules_filters_sources wPE "/m"
    [{ name := "main.tf", isDir := false }, { name := "sub", isDir := true },
      { name := "README.md", isDir := false }]
    (fun _ => ["./child", "./child", "/abs", "git::example.com-mod", "../m2"])
    (by decide) ?_
  · exact h.trans (by decide)
  · intro f hf
    rw [hl] at hf
    have hf' : f = "/m/main.tf" := by simpa using hf
    subst hf'
    decide

/-- C8 witness: of the two roots only `/proj/p` is affected; the batch
result is exactly its base-relative conversion. -/
theorem c8_w :
    ["p"] = (["/proj/p", "/proj/q"].filter
      (fun d => decide (d = "/proj/p"))).map (relOutput "/w" "/proj") := by
  apply c8_analyzeRootModules.2 wFS wFCM "/w" wChanged "/proj" 3
    ["/proj/p", "/proj/q"] ["p"] (fun d => decide (d = "/proj/p")) wFCM_wf (by decide)
  · intro d hd
    rcases (by simpa using hd : d = "/proj/p" ∨ d = "/proj/q") with h | h <;> subst h <;>
      exact ⟨by decide, by decide⟩
  · intro d hd
    rcases (by simpa using hd : d = "/proj/p" ∨ d = "/proj/q") with h | h <;> subst h
    · exact iff_of_true (by decide) wUpdated_p
    · exact iff_of_false (by decide) wNotUpdated_q
  · decide

/-- C9 witness: with the concrete measure the analysis of `/proj/c`
finishes within budget 2, while the concrete cycle never finishes, at
budget 5 in particular. -/
theorem c9_w :
    IsModuleUpdated wFS wFCM "/w" 2 (NewAnalyzer "/w" wChanged) "/proj/c" ≠ none ∧
    IsModuleUpdated cycFS cycFCM "/w" 5 (NewAnalyzer "/w" []) "/m" = none :=
  ⟨c9_termination_vs_cycle.1 wFS wFCM "/w" wMu wFCM_wf wMu_ok 2
      (NewAnalyzer "/w" wChanged) "/proj/c" (by decide) (by decide) (by decide),
    c9_termination_vs_cycle.2 5⟩

/-- C10 witness: the direct-read error on `/proj/r` returns the engine
untouched, and the child-propagated error on `/proj/e` leaves `/proj/e`
uncached. -/
theorem c10_w :
    (IsModuleUpdated wFS wFCM "/w" 1 (NewAnalyzer "/w" wChanged) "/proj/r" =
      some (NewAnalyzer "/w" wChanged,
        Except.error ("failed to check direct changes in " ++ "/proj/r" ++ ": " ++
          "failed to read directory /proj/r: permission denied"))) ∧
    lookupCache (NewAnalyzer "/w" wChanged).analysisCache "/proj/e" = none := by
  constructor
  · exact c10_error_atomicity.1 wFS wFCM "/w" (NewAnalyzer "/w" wChanged) "/proj/r" 0
      "failed to read directory /proj/r: permission denied"
      (by decide) (by decide) (by decide) (by decide) (by decide)
  · exact (c10_error_atomicity.2 wFS wFCM "/w" 3
      (NewAnalyzer "/w" wChanged) "/proj/e" (NewAnalyzer "/w" wChanged)
      ("failed to analyze child module /proj/r: " ++
        "failed to check direct changes in /proj/r: " ++
        "failed to read directory /proj/r: permission denied")
      wFCM_wf (by decide) (by decide) (by decide)).1.trans (by decide)
